import Mathlib

/-!
Verification development for a retrieval-fusion / rerank / structured-answer
pipeline.  The Lean definitions below are shallow embeddings of the Python
sources:

  * `ESVectorStore`   embeds `src/models/es_vector_store.py`
                      (`ElasticSearchClient.hybrid_search`, lines 211-293);
  * `Reranker`        embeds `src/utils/bge_reranker.py`
                      (`UniversalBGEReranker` and its three strategies);
  * `Chains`          embeds `src/langchain_integration/chains.py`
                      (`AnswerTypeClassifier.determine_answer_type` and
                      `StructuredOutputParser.parse`);
  * `KBModel`         embeds `src/models/knowledge_base.py`
                      (`KnowledgeBase.determine_answer_type`).

Python floats are modelled as exact rationals (`ℚ`); Python strings as
`List Char`; Python dicts that only need insertion-ordered key/value
behaviour as association lists.  External calls (Elasticsearch hits, the
Jina rerank HTTP response, the cross-encoder model, the LLM judge) are
passed in as explicit inputs, so every function is a total Lean function
of its inputs, mirroring the data flow of the source.
-/

/-- Boolean infix (substring) test on character lists; model of Python's
`needle in haystack` for strings. -/
def isInfixCh (needle : List Char) : List Char → Bool
  | [] => needle.isEmpty
  | c :: t => needle.isPrefixOf (c :: t) || isInfixCh needle t

/-- Whitespace stripped by Python's `str.strip()` (ASCII portion: space,
tab, newline, carriage return, vertical tab, form feed). -/
def isPyWs (c : Char) : Bool :=
  c = ' ' || c = '\t' || c = '\n' || c = '\r' ||
  c = Char.ofNat 11 || c = Char.ofNat 12

/-- Model of Python `str.strip()`. -/
def pyStrip (cs : List Char) : List Char :=
  ((cs.dropWhile isPyWs).reverse.dropWhile isPyWs).reverse

/-- Model of Python `str.split('\n')`. -/
def splitOnNl (cs : List Char) : List (List Char) :=
  match cs with
  | [] => [[]]
  | c :: t =>
    if c = '\n' then [] :: splitOnNl t
    else
      match splitOnNl t with
      | [] => [[c]]
      | l :: ls => (c :: l) :: ls

/-- Model of Python `'\n'.join(lines)`. -/
def joinNl : List (List Char) → List Char
  | [] => []
  | [l] => l
  | l :: ls => l ++ '\n' :: joinNl ls

/-- Stable insertion (descending by `key`): the new element goes in front of
the first already-placed element whose key is not larger.  Together with
`sortDescBy` this is the model of Python's stable
`list.sort(key=..., reverse=True)`. -/
def insertDescBy {α : Type} (key : α → ℚ) (x : α) : List α → List α
  | [] => [x]
  | y :: ys => if key x ≥ key y then x :: y :: ys else y :: insertDescBy key x ys

/-- Stable descending sort by `key` (model of Python's stable
`list.sort(key=..., reverse=True)`). -/
def sortDescBy {α : Type} (key : α → ℚ) : List α → List α
  | [] => []
  | x :: xs => insertDescBy key x (sortDescBy key xs)

namespace ESVectorStore

/-- One search hit as returned by `search_by_vector` / `keyword_search`:
`{'id': ..., 'score': ..., 'content': ..., 'metadata': ...}`. -/
structure Hit where
  id : List Char
  content : List Char
  metadata : List (List Char × List Char)
  score : ℚ

/-- One entry of the `all_results` dict built inside `hybrid_search`. -/
structure Entry where
  id : List Char
  content : List Char
  metadata : List (List Char × List Char)
  vector_score : ℚ
  keyword_score : ℚ

/-- One element of `pre_rerank_results`. -/
structure Cand where
  id : List Char
  content : List Char
  metadata : List (List Char × List Char)
  hybrid_score : ℚ
  vector_score : ℚ
  keyword_score : ℚ

/-- `all_results[doc_id] = {..., 'vector_score': item['score'],
'keyword_score': 0.0}` — Python-dict assignment on an insertion-ordered
association list: an existing key keeps its position and is overwritten, a
new key is appended. -/
def addVectorHit (m : List Entry) (h : Hit) : List Entry :=
  match m with
  | [] => [⟨h.id, h.content, h.metadata, h.score, 0⟩]
  | e :: t =>
    if e.id = h.id then ⟨h.id, h.content, h.metadata, h.score, 0⟩ :: t
    else e :: addVectorHit t h

/-- The keyword loop of `hybrid_search`: update `keyword_score` of an
existing entry in place, else append a fresh entry with `vector_score = 0`. -/
def addKeywordHit (m : List Entry) (h : Hit) : List Entry :=
  match m with
  | [] => [⟨h.id, h.content, h.metadata, 0, h.score⟩]
  | e :: t =>
    if e.id = h.id then { e with keyword_score := h.score } :: t
    else e :: addKeywordHit t h

/-- The `all_results` dict after both insertion loops of `hybrid_search`. -/
def buildAllResults (vectorResults keywordResults : List Hit) : List Entry :=
  keywordResults.foldl addKeywordHit (vectorResults.foldl addVectorHit [])

/-- `pre_rerank_results` before sorting: one candidate per dict entry with
`hybrid_score = vector_score * vector_weight + keyword_score * (1 - vector_weight)`. -/
def preRerankResults (vectorResults keywordResults : List Hit) (vector_weight : ℚ) :
    List Cand :=
  (buildAllResults vectorResults keywordResults).map fun e =>
    ⟨e.id, e.content, e.metadata,
     e.vector_score * vector_weight + e.keyword_score * (1 - vector_weight),
     e.vector_score, e.keyword_score⟩

/-- `pre_rerank_results.sort(key=lambda x: x['hybrid_score'], reverse=True)`. -/
def fusedResults (vectorResults keywordResults : List Hit) (vector_weight : ℚ) :
    List Cand :=
  sortDescBy (fun c => c.hybrid_score) (preRerankResults vectorResults keywordResults vector_weight)

/-- Return value of `hybrid_search` on the no-rerank path
(`use_reranker` false, or reranker unavailable): `pre_rerank_results[:top_k]`
after the sort. -/
def hybrid_search (vectorResults keywordResults : List Hit) (vector_weight : ℚ)
    (top_k : ℕ) : List Cand :=
  (fusedResults vectorResults keywordResults vector_weight).take top_k

end ESVectorStore

namespace Reranker

/-- One element of the result lists built by the `_*_rerank` methods. -/
structure Outcome where
  index : ℕ
  score : ℚ
  text : List Char
  original_rank : ℕ
  rerank_score : ℚ

/-- The `model_type` values accepted by `UniversalBGEReranker._setup_model`
(an unknown string is normalized to `cross_encoder` there, so the enum is
exhaustive). -/
inductive ModelType where
  | cross_encoder
  | jina_api
  | llm

/-- One element of the Jina response's `results` list; `index` and
`relevance_score` model `item.get('index', i)` / `item.get('relevance_score', 0.0)`. -/
structure JinaItem where
  index : Option ℕ
  relevance_score : Option ℚ

/-- Outcome of `requests.post(...)` in `_jina_api_rerank`: `raised` is any
exception (timeout, connection error, non-JSON body — all caught by the
`except` clause), `status code body` is an HTTP reply whose parsed JSON body
has (`some items`) or lacks (`none`) a `results` key. -/
inductive RemoteOutcome where
  | raised
  | status (code : ℕ) (body : Option (List JinaItem))

/-- The pass-through fallback used by every strategy:
`[{'index': i, 'score': 1.0/(i+1), 'text': doc, 'original_rank': i,
'rerank_score': 1.0/(i+1)} for i, doc in enumerate(documents[:top_k])]`. -/
def passThrough (documents : List (List Char)) (top_k : ℕ) : List Outcome :=
  (documents.take top_k).enum.map fun p =>
    ⟨p.1, 1 / ((p.1 : ℚ) + 1), p.2, p.1, 1 / ((p.1 : ℚ) + 1)⟩

/-- `_cross_encoder_rerank`; `predict` is the outcome of
`self.model.predict` (`Except.error` = the call raised), giving one score
per document position. -/
def crossEncoderRerank (initialized : Bool) (predict : Except Unit (ℕ → ℚ))
    (documents : List (List Char)) (top_k : ℕ) : List Outcome :=
  if initialized = false then passThrough documents top_k
  else
    match predict with
    | .error _ => passThrough documents top_k
    | .ok f =>
      let score_list := (List.range documents.length).map fun i => (i, f i)
      let sorted := sortDescBy (fun p => p.2) score_list
      (sorted.take top_k).map fun p => ⟨p.1, p.2, documents.getD p.1 [], p.1, p.2⟩

/-- `_jina_api_rerank`. -/
def jinaApiRerank (initialized headersPresent : Bool) (resp : RemoteOutcome)
    (documents : List (List Char)) (top_k : ℕ) : List Outcome :=
  if initialized = false || headersPresent = false then passThrough documents top_k
  else
    match resp with
    | .raised => passThrough documents top_k
    | .status code body =>
      if code = 200 then
        match body with
        | none => []
        | some items =>
          items.enum.map fun p =>
            let doc_idx := p.2.index.getD p.1
            let score := p.2.relevance_score.getD 0
            ⟨doc_idx, score,
             if doc_idx < documents.length then documents.getD doc_idx [] else [],
             doc_idx, score⟩
      else passThrough documents top_k

/-- The reranker's mutable state read by `_jina_api_rerank`
(`self._initialized`, `self.jina_headers`). -/
structure JinaState where
  initialized : Bool
  headersPresent : Bool

/-- The `_jina_api_rerank` method as state transformer: the body reads
`self._initialized` / `self.jina_headers` and never writes them, so the
posterior state equals the prior state (a failed call is not remembered). -/
def jinaApiRerankMethod (self : JinaState) (resp : RemoteOutcome)
    (documents : List (List Char)) (top_k : ℕ) : List Outcome × JinaState :=
  (jinaApiRerank self.initialized self.headersPresent resp documents top_k, self)

/-- The result-building loop of `_llm_rerank`: iterate over `documents`,
score from `rankings[i].get("relevance_score", 0.0)` when `i < len(rankings)`
else `0.0`, and break once `processed_docs >= top_k` (checked after the
append, so `top_k = 0` still yields one element). -/
def llmLoop (rankings : List (Option ℚ)) (documents : List (List Char))
    (i top_k : ℕ) : List Outcome :=
  match documents with
  | [] => []
  | d :: ds =>
    let score := (rankings.getD i none).getD 0
    let o : Outcome := ⟨i, score, d, i, score⟩
    if i + 1 ≥ top_k then [o] else o :: llmLoop rankings ds (i + 1) top_k

/-- `_llm_rerank`; `rankings` is the per-block list obtained from the LLM
call (`Except.error` = the call raised or the reply shape was rejected,
both caught by the `except` clause). -/
def llmRerank (initialized clientPresent : Bool)
    (rankings : Except Unit (List (Option ℚ)))
    (documents : List (List Char)) (top_k : ℕ) : List Outcome :=
  if initialized = false || clientPresent = false then passThrough documents top_k
  else
    match rankings with
    | .error _ => passThrough documents top_k
    | .ok rs => sortDescBy (fun o => o.rerank_score) (llmLoop rs documents 0 top_k)

/-- The external inputs consumed by the three strategies. -/
structure RerankEnv where
  crossPredict : Except Unit (ℕ → ℚ)
  jinaResponse : RemoteOutcome
  llmRankings : Except Unit (List (Option ℚ))

/-- The fields of `self` read by `UniversalBGEReranker.rerank`. -/
structure RerankerSelf where
  model_type : ModelType
  initialized : Bool
  headersPresent : Bool
  clientPresent : Bool

/-- `UniversalBGEReranker.rerank`: empty-document early return, then
dispatch on `model_type`. -/
def rerank (self : RerankerSelf) (env : RerankEnv) (_query : List Char)
    (documents : List (List Char)) (top_k : ℕ) : List Outcome :=
  if documents.isEmpty then []
  else
    match self.model_type with
    | .cross_encoder => crossEncoderRerank self.initialized env.crossPredict documents top_k
    | .jina_api =>
      jinaApiRerank self.initialized self.headersPresent env.jinaResponse documents top_k
    | .llm => llmRerank self.initialized self.clientPresent env.llmRankings documents top_k

end Reranker

namespace Chains

/-- Keyword lists of `AnswerTypeClassifier.determine_answer_type`
(`chains.py`, lines 32-42). -/
def number_keywords : List (List Char) :=
  ["多少".toList, "金额".toList, "数值".toList, "数量".toList, "比例".toList,
   "百分比".toList, "率".toList, "收入".toList, "利润".toList, "资产".toList,
   "负债".toList, "销售额".toList, "成本".toList, "费用".toList, "投资".toList,
   "市值".toList, "股价".toList, "收益".toList, "产值".toList, "产量".toList,
   "销量".toList]

def name_keywords : List (List Char) :=
  ["谁".toList, "哪个".toList, "哪位".toList, "什么人".toList, "姓名".toList,
   "名字".toList, "叫什么".toList, "称谓".toList, "职务".toList, "职位".toList,
   "角色".toList]

def boolean_keywords : List (List Char) :=
  ["是否".toList, "有没有".toList, "是否存在".toList, "能否".toList, "可否".toList,
   "是不是".toList, "有没有".toList, "是否具备".toList, "是否拥有".toList]

def names_keywords : List (List Char) :=
  ["哪些".toList, "哪些人".toList, "几个人".toList, "都有谁".toList, "都包括".toList,
   "分别".toList, "列表".toList, "清单".toList, "所有".toList, "多个".toList]

/-- `AnswerTypeClassifier.determine_answer_type` (`chains.py`, lines 19-61):
lowercase the question, then check the four keyword families in a fixed
order, defaulting to `"string"`. -/
def determine_answer_type (question : List Char) : String :=
  let question_lower := question.map Char.toLower
  if number_keywords.any fun k => isInfixCh k question_lower then "number"
  else if name_keywords.any fun k => isInfixCh k question_lower then "name"
  else if boolean_keywords.any fun k => isInfixCh k question_lower then "boolean"
  else if names_keywords.any fun k => isInfixCh k question_lower then "names"
  else "string"

end Chains

namespace KBModel

/-- Keyword lists of `KnowledgeBase.determine_answer_type`
(`knowledge_base.py`, lines 150-160). -/
def number_keywords : List (List Char) :=
  ["多少".toList, "金额".toList, "数值".toList, "数量".toList, "比例".toList,
   "百分比".toList, "率".toList, "收入".toList, "利润".toList, "资产".toList,
   "负债".toList, "销售额".toList, "成本".toList, "费用".toList, "投资".toList,
   "市值".toList, "股价".toList, "收益".toList, "产值".toList, "产量".toList,
   "销量".toList]

def name_keywords : List (List Char) :=
  ["谁".toList, "哪个".toList, "哪位".toList, "什么人".toList, "姓名".toList,
   "名字".toList, "叫什么".toList, "称谓".toList, "职务".toList, "职位".toList,
   "角色".toList]

def boolean_keywords : List (List Char) :=
  ["是否".toList, "有没有".toList, "是否存在".toList, "能否".toList, "可否".toList,
   "是不是".toList, "有没有".toList, "是否具备".toList, "是否拥有".toList]

def names_keywords : List (List Char) :=
  ["哪些".toList, "哪些人".toList, "几个人".toList, "都有谁".toList, "都包括".toList,
   "分别".toList, "列表".toList, "清单".toList, "所有".toList, "多个".toList]

/-- `KnowledgeBase.determine_answer_type` (`knowledge_base.py`, lines
137-179). -/
def determine_answer_type (question : List Char) : String :=
  let question_lower := question.map Char.toLower
  if number_keywords.any fun k => isInfixCh k question_lower then "number"
  else if name_keywords.any fun k => isInfixCh k question_lower then "name"
  else if boolean_keywords.any fun k => isInfixCh k question_lower then "boolean"
  else if names_keywords.any fun k => isInfixCh k question_lower then "names"
  else "string"

end KBModel

/-! ## JSON model and `StructuredOutputParser.parse` -/

/-- JSON values as produced by Python's `json.loads` (numbers are kept as
exact rationals; the Python `int`/`float` distinction is irrelevant to the
claims below; `nan`/`inf`/`ninf` model the `NaN`/`Infinity`/`-Infinity`
constants Python accepts). Objects are insertion-ordered association
lists with Python-dict update semantics for duplicate keys. -/
inductive Json where
  | null
  | bool (b : Bool)
  | num (q : ℚ)
  | nan
  | inf
  | ninf
  | str (s : List Char)
  | arr (elems : List Json)
  | obj (fields : List (List Char × Json))

/-- Left brace character (0x7b). -/
def braceL : Char := Char.ofNat 123

/-- Right brace character (0x7d). -/
def braceR : Char := Char.ofNat 125

/-- JSON whitespace skipped by `json.loads` (space, tab, newline, CR). -/
def jsonWs (c : Char) : Bool := c = ' ' || c = '\t' || c = '\n' || c = '\r'

def isDigitCh (c : Char) : Bool := '0' ≤ c && c ≤ '9'

def digitVal (c : Char) : ℕ := c.toNat - 48

/-- Numeric value of a digit string (base 10). -/
def digitsVal (ds : List Char) : ℕ := ds.foldl (fun a c => 10 * a + digitVal c) 0

def parseHexDigit (c : Char) : Option ℕ :=
  if isDigitCh c then some (digitVal c)
  else if 'a' ≤ c && c ≤ 'f' then some (c.toNat - 87)
  else if 'A' ≤ c && c ≤ 'F' then some (c.toNat - 55)
  else none

def hex4 (a b c d : Char) : Option ℕ :=
  match parseHexDigit a, parseHexDigit b, parseHexDigit c, parseHexDigit d with
  | some x, some y, some z, some w => some (((x * 16 + y) * 16 + z) * 16 + w)
  | _, _, _, _ => none

/-- Body of a JSON string after the opening quote (strict mode: raw control
characters rejected, the standard escapes and `\uXXXX` with surrogate-pair
combination accepted; a lone surrogate is rejected — Python would keep the
unpaired code unit, which no claim below exercises).  Fuel-recursive;
callers pass `len+1`, which can never run out because every step consumes
at least one character. -/
def parseStringBody : ℕ → List Char → Option (List Char × List Char)
  | 0, _ => none
  | _ + 1, [] => none
  | f + 1, c :: r =>
    if c = '"' then some ([], r)
    else if c = '\\' then
      match r with
      | [] => none
      | e :: r2 =>
        if e = 'u' then
          match r2 with
          | a :: b :: c2 :: d :: r3 =>
            match hex4 a b c2 d with
            | none => none
            | some n =>
              if 0xD800 ≤ n && n ≤ 0xDBFF then
                match r3 with
                | e2 :: u2 :: a2 :: b2 :: c3 :: d2 :: r4 =>
                  if e2 = '\\' && u2 = 'u' then
                    match hex4 a2 b2 c3 d2 with
                    | none => none
                    | some m =>
                      if 0xDC00 ≤ m && m ≤ 0xDFFF then
                        (parseStringBody f r4).map fun p =>
                          (Char.ofNat (0x10000 + (n - 0xD800) * 0x400 + (m - 0xDC00)) :: p.1,
                           p.2)
                      else none
                  else none
                | _ => none
              else if 0xDC00 ≤ n && n ≤ 0xDFFF then none
              else (parseStringBody f r3).map fun p => (Char.ofNat n :: p.1, p.2)
          | _ => none
        else if e = '"' then (parseStringBody f r2).map fun p => ('"' :: p.1, p.2)
        else if e = '\\' then (parseStringBody f r2).map fun p => ('\\' :: p.1, p.2)
        else if e = '/' then (parseStringBody f r2).map fun p => ('/' :: p.1, p.2)
        else if e = 'b' then (parseStringBody f r2).map fun p => (Char.ofNat 8 :: p.1, p.2)
        else if e = 'f' then (parseStringBody f r2).map fun p => (Char.ofNat 12 :: p.1, p.2)
        else if e = 'n' then (parseStringBody f r2).map fun p => ('\n' :: p.1, p.2)
        else if e = 'r' then (parseStringBody f r2).map fun p => ('\r' :: p.1, p.2)
        else if e = 't' then (parseStringBody f r2).map fun p => ('\t' :: p.1, p.2)
        else none
    else if c.toNat < 32 then none
    else (parseStringBody f r).map fun p => (c :: p.1, p.2)

/-- Exponent part `([eE][-+]?\d+)?` of a JSON number; returns
(negative?, digits, rest); empty digits means no exponent was consumed. -/
def takeExp (cs : List Char) : Bool × List Char × List Char :=
  match cs with
  | e :: t =>
    if e = 'e' || e = 'E' then
      match t with
      | '-' :: t2 =>
        let ds := t2.takeWhile isDigitCh
        if ds.isEmpty then (false, [], cs) else (true, ds, t2.dropWhile isDigitCh)
      | '+' :: t2 =>
        let ds := t2.takeWhile isDigitCh
        if ds.isEmpty then (false, [], cs) else (false, ds, t2.dropWhile isDigitCh)
      | _ =>
        let ds := t.takeWhile isDigitCh
        if ds.isEmpty then (false, [], cs) else (false, ds, t.dropWhile isDigitCh)
    else (false, [], cs)
  | [] => (false, [], cs)

/-- Fraction part `(\.\d+)?` of a JSON number. -/
def takeFrac (cs : List Char) : List Char × List Char :=
  match cs with
  | '.' :: t =>
    let ds := t.takeWhile isDigitCh
    if ds.isEmpty then ([], cs) else (ds, t.dropWhile isDigitCh)
  | _ => ([], cs)

/-- Exact value of a matched JSON number. -/
def numValue (neg : Bool) (ip : ℕ) (fracDs : List Char) (expNeg : Bool)
    (expDs : List Char) : ℚ :=
  let base : ℚ := (ip : ℚ) + (digitsVal fracDs : ℚ) / (10 : ℚ) ^ fracDs.length
  let ev := digitsVal expDs
  let m : ℚ := if expNeg then base / (10 : ℚ) ^ ev else base * (10 : ℚ) ^ ev
  if neg then -m else m

/-- Unsigned part `(0|[1-9]\d*)(\.\d+)?([eE][-+]?\d+)?` of a JSON number,
with the sign already consumed. -/
def parseUnsigned (neg : Bool) (cs : List Char) : Option (Json × List Char) :=
  match cs with
  | [] => none
  | c :: t =>
    if c = '0' then
      let fr := takeFrac t
      let ex := takeExp fr.2
      some (Json.num (numValue neg 0 fr.1 ex.1 ex.2.1), ex.2.2)
    else if isDigitCh c then
      let ds := t.takeWhile isDigitCh
      let rest0 := t.dropWhile isDigitCh
      let fr := takeFrac rest0
      let ex := takeExp fr.2
      some (Json.num (numValue neg (digitsVal (c :: ds)) fr.1 ex.1 ex.2.1), ex.2.2)
    else none

/-- JSON number: `(-?(?:0|[1-9]\d*))(\.\d+)?([eE][-+]?\d+)?` (the regex of
Python's json scanner), evaluated exactly. -/
def parseNumber (cs : List Char) : Option (Json × List Char) :=
  match cs with
  | '-' :: t => parseUnsigned true t
  | _ => parseUnsigned false cs

/-- Python-dict insertion for object members parsed by `json.loads`:
a duplicate key keeps its first position and takes the last value. -/
def objInsert (m : List (List Char × Json)) (k : List Char) (v : Json) :
    List (List Char × Json) :=
  match m with
  | [] => [(k, v)]
  | p :: t => if p.1 = k then (k, v) :: t else p :: objInsert t k v

mutual

/-- One JSON value starting at the head of the input (no leading
whitespace), fuel-bounded; `jsonLoads` supplies fuel `2*len+4`, which the
call structure (at least one consumed character per two fuel units) always
satisfies. -/
def parseValue : ℕ → List Char → Option (Json × List Char)
  | 0, _ => none
  | Nat.succ fuel, cs =>
    match cs with
    | [] => none
    | c :: rest =>
      if c = braceL then parseObjRest fuel (rest.dropWhile jsonWs)
      else if c = '[' then parseArrRest fuel (rest.dropWhile jsonWs)
      else if c = '"' then (parseStringBody (rest.length + 1) rest).map fun p => (Json.str p.1, p.2)
      else if c = 't' then
        match rest with
        | r1 :: r2 :: r3 :: r =>
          if r1 = 'r' && r2 = 'u' && r3 = 'e' then some (Json.bool true, r) else none
        | _ => none
      else if c = 'f' then
        match rest with
        | r1 :: r2 :: r3 :: r4 :: r =>
          if r1 = 'a' && r2 = 'l' && r3 = 's' && r4 = 'e' then some (Json.bool false, r)
          else none
        | _ => none
      else if c = 'n' then
        match rest with
        | r1 :: r2 :: r3 :: r =>
          if r1 = 'u' && r2 = 'l' && r3 = 'l' then some (Json.null, r) else none
        | _ => none
      else if c = 'N' then
        match rest with
        | r1 :: r2 :: r =>
          if r1 = 'a' && r2 = 'N' then some (Json.nan, r) else none
        | _ => none
      else if c = 'I' then
        if ("nfinity".toList).isPrefixOf rest then some (Json.inf, rest.drop 7) else none
      else if c = '-' then
        if ("Infinity".toList).isPrefixOf rest then some (Json.ninf, rest.drop 8)
        else parseNumber cs
      else if isDigitCh c then parseNumber cs
      else none

/-- Object tail after `{` and whitespace. -/
def parseObjRest : ℕ → List Char → Option (Json × List Char)
  | 0, _ => none
  | Nat.succ fuel, cs =>
    match cs with
    | c :: r => if c = braceR then some (Json.obj [], r) else parseMembers fuel cs []
    | [] => none

/-- Object member loop: `"key" \s* : \s* value \s* (,|})`, whitespace
skipped after a comma. -/
def parseMembers : ℕ → List Char → List (List Char × Json) →
    Option (Json × List Char)
  | 0, _, _ => none
  | Nat.succ fuel, cs, acc =>
    match cs with
    | '"' :: r =>
      match parseStringBody (r.length + 1) r with
      | none => none
      | some (k, r2) =>
        match r2.dropWhile jsonWs with
        | ':' :: r3 =>
          match parseValue fuel (r3.dropWhile jsonWs) with
          | none => none
          | some (v, r4) =>
            match r4.dropWhile jsonWs with
            | ',' :: r5 => parseMembers fuel (r5.dropWhile jsonWs) (objInsert acc k v)
            | d :: r5 =>
              if d = braceR then some (Json.obj (objInsert acc k v), r5) else none
            | [] => none
        | _ => none
    | _ => none

/-- Array tail after `[` and whitespace. -/
def parseArrRest : ℕ → List Char → Option (Json × List Char)
  | 0, _ => none
  | Nat.succ fuel, cs =>
    match cs with
    | ']' :: r => some (Json.arr [], r)
    | _ => parseElems fuel cs []

/-- Array element loop: `value \s* (,\s*|])`. -/
def parseElems : ℕ → List Char → List Json → Option (Json × List Char)
  | 0, _, _ => none
  | Nat.succ fuel, cs, acc =>
    match parseValue fuel cs with
    | none => none
    | some (v, r) =>
      match r.dropWhile jsonWs with
      | ',' :: r2 => parseElems fuel (r2.dropWhile jsonWs) (acc ++ [v])
      | ']' :: r2 => some (Json.arr (acc ++ [v]), r2)
      | _ => none

end

/-- Model of Python `json.loads`: skip leading whitespace, parse one value,
require only whitespace to remain. -/
def jsonLoads (cs : List Char) : Option Json :=
  match parseValue (2 * cs.length + 4) (cs.dropWhile jsonWs) with
  | none => none
  | some (v, rest) => if (rest.dropWhile jsonWs).isEmpty then some v else none

/-! ## The `parse` cascade of `StructuredOutputParser` -/

/-- First condition of the fence loop:
`line.strip().startswith('```json') or line.strip() == '```'`. -/
def fenceCond (l : List Char) : Bool :=
  ("```json".toList).isPrefixOf (pyStrip l) || pyStrip l = "```".toList

/-- The markdown-fence extraction loop of `parse` (`chains.py`, lines
84-100): toggle `inside_json` on the fence lines, collect the lines in
between. -/
def fenceCollect : List (List Char) → Bool → List (List Char)
  | [], _ => []
  | l :: ls, inside =>
    if fenceCond l then
      if inside = false && isInfixCh ("```json".toList) l then fenceCollect ls true
      else if inside && pyStrip l = "```".toList then fenceCollect ls false
      else if inside then l :: fenceCollect ls inside
      else fenceCollect ls inside
    else if inside then l :: fenceCollect ls inside
    else fenceCollect ls inside

/-- Fence handling of `parse`: only when the text contains ` ``` `, and only
when at least one line was collected, replace the text by the stripped
join of the collected lines. -/
def processFence (t : List Char) : List Char :=
  if isInfixCh "```".toList t then
    let jl := fenceCollect (splitOnNl t) false
    if jl.isEmpty then t else pyStrip (joinNl jl)
  else t

/-- `processed_text[start_idx:end_idx+1]` for the first `{` and the last
`}`, provided both exist and `start_idx < end_idx`. -/
def braceSpan (t : List Char) : Option (List Char) :=
  match List.findIdx? (fun c => c = braceL) t, List.findIdx? (fun c => c = braceR) t.reverse with
  | some s, some rI =>
    let e := t.length - 1 - rI
    if s < e then some ((t.drop s).take (e - s + 1)) else none
  | _, _ => none

/-- Whitespace class of Python's regex `\s` (ASCII portion). -/
def isReWs (c : Char) : Bool := isPyWs c

/-- `re.sub(r',(\s*[}\]])', r'\1', ...)`: drop a comma followed by optional
whitespace and a closing bracket; scanning resumes after the matched
bracket.  Fuel = input length (one character is consumed per step). -/
def removeTrailingCommasGo : ℕ → List Char → List Char
  | 0, cs => cs
  | _ + 1, [] => []
  | f + 1, c :: t =>
    if c = ',' then
      let ws := t.takeWhile isReWs
      match t.dropWhile isReWs with
      | b :: r =>
        if b = braceR || b = ']' then ws ++ b :: removeTrailingCommasGo f r
        else c :: removeTrailingCommasGo f t
      | [] => c :: removeTrailingCommasGo f t
    else c :: removeTrailingCommasGo f t

def removeTrailingCommas (cs : List Char) : List Char :=
  removeTrailingCommasGo cs.length cs

/-- `.replace('\n','\\n').replace('\t','\\t').replace('\r','\\r')`. -/
def escapeCtl (cs : List Char) : List Char :=
  cs.flatMap fun c =>
    if c = '\n' then ['\\', 'n']
    else if c = '\t' then ['\\', 't']
    else if c = '\r' then ['\\', 'r']
    else [c]

/-- The three decoding attempts of `parse` (direct `json.loads`, brace
span, cleaned brace span); `none` means all of them raised
`JSONDecodeError` and the regex recovery stage runs. -/
def decodeStages (pt : List Char) : Option Json :=
  match jsonLoads pt with
  | some v => some v
  | none =>
    match braceSpan pt with
    | none => none
    | some jc =>
      match jsonLoads jc with
      | some v => some v
      | none => jsonLoads (escapeCtl (removeTrailingCommas jc))

/-! ### Regex recovery (stage: field-by-field extraction) -/

/-- Tail matcher for `"key"\s*:\s*"([^"]*)"` after the key literal. -/
def matchColonQuoted (r0 : List Char) : Option (List Char) :=
  match r0.dropWhile isReWs with
  | c :: r1 =>
    if c = ':' then
      match r1.dropWhile isReWs with
      | q :: r2 =>
        if q = '"' then
          match r2.dropWhile (fun c2 => c2 ≠ '"') with
          | _ :: _ => some (r2.takeWhile (fun c2 => c2 ≠ '"'))
          | [] => none
        else none
      | [] => none
    else none
  | [] => none

/-- Tail matcher for `"key"[^}]*?"([^"]*)"` after the key literal: the
first quote not preceded by a closing brace opens the capture, which must
be closed by another quote. -/
def matchAltTail (r0 : List Char) : Option (List Char) :=
  match r0.dropWhile (fun c => c ≠ braceR && c ≠ '"') with
  | q :: r1 =>
    if q = '"' then
      match r1.dropWhile (fun c2 => c2 ≠ '"') with
      | _ :: _ => some (r1.takeWhile (fun c2 => c2 ≠ '"'))
      | [] => none
    else none
  | [] => none

/-- Tail matcher for `"relevant_pages"\s*:\s*\[([^\]]*)\]`. -/
def matchColonBracket (r0 : List Char) : Option (List Char) :=
  match r0.dropWhile isReWs with
  | c :: r1 =>
    if c = ':' then
      match r1.dropWhile isReWs with
      | b :: r2 =>
        if b = '[' then
          match r2.dropWhile (fun c2 => c2 ≠ ']') with
          | _ :: _ => some (r2.takeWhile (fun c2 => c2 ≠ ']'))
          | [] => none
        else none
      | [] => none
    else none
  | [] => none

/-- `re.search` for a pattern that begins with a fixed key literal: try
every occurrence of the literal from the left, completing the match with
`tailMatch`. -/
def searchWith (keyLit : List Char) (tailMatch : List Char → Option (List Char)) :
    List Char → Option (List Char)
  | [] => none
  | c :: t =>
    if keyLit.isPrefixOf (c :: t) then
      match tailMatch ((c :: t).drop keyLit.length) with
      | some cap => some cap
      | none => searchWith keyLit tailMatch t
    else searchWith keyLit tailMatch t

/-- Character class of the fallback pages pattern `\[([0-9,\s]+)\]`. -/
def pagesAltClass (c : Char) : Bool := isDigitCh c || c = ',' || isReWs c

/-- `re.search(r'\[([0-9,\s]+)\]', ...)`. -/
def searchPagesAlt : List Char → Option (List Char)
  | [] => none
  | c :: t =>
    if c = '[' then
      let cap := t.takeWhile pagesAltClass
      if cap.isEmpty then searchPagesAlt t
      else
        match t.dropWhile pagesAltClass with
        | d :: _ => if d = ']' then some cap else searchPagesAlt t
        | [] => searchPagesAlt t
    else searchPagesAlt t

/-- `re.findall(r'\d+', s)` followed by `int(...)` on each run. -/
def digitRunsGo : List Char → Option ℕ → List ℕ
  | [], cur =>
    match cur with
    | some a => [a]
    | none => []
  | c :: t, cur =>
    if isDigitCh c then digitRunsGo t (some (10 * cur.getD 0 + digitVal c))
    else
      match cur with
      | some a => a :: digitRunsGo t none
      | none => digitRunsGo t none

def digitRuns (cs : List Char) : List ℕ := digitRunsGo cs none

/-- `.replace('\\n', '\n')` applied to the extracted analysis text. -/
def unescapeNl : List Char → List Char
  | [] => []
  | '\\' :: 'n' :: t => '\n' :: unescapeNl t
  | c :: t => c :: unescapeNl t

def keyStepLit : List Char := "\"step_by_step_analysis\"".toList
def keySummaryLit : List Char := "\"reasoning_summary\"".toList
def keyPagesLit : List Char := "\"relevant_pages\"".toList
def keyFinalLit : List Char := "\"final_answer\"".toList

def fieldStep : List Char := "step_by_step_analysis".toList
def fieldSummary : List Char := "reasoning_summary".toList
def fieldPages : List Char := "relevant_pages".toList
def fieldFinal : List Char := "final_answer".toList

/-- Extraction of `step_by_step_analysis` (primary then alternative
pattern, both unescaping `\\n`). -/
def extractStep (pt : List Char) : Option (List Char) :=
  match searchWith keyStepLit matchColonQuoted pt with
  | some cap => some (unescapeNl cap)
  | none =>
    match searchWith keyStepLit matchAltTail pt with
    | some cap => some (unescapeNl cap)
    | none => none

def extractSummary (pt : List Char) : Option (List Char) :=
  match searchWith keySummaryLit matchColonQuoted pt with
  | some cap => some cap
  | none => searchWith keySummaryLit matchAltTail pt

def extractFinal (pt : List Char) : Option (List Char) :=
  match searchWith keyFinalLit matchColonQuoted pt with
  | some cap => some cap
  | none => searchWith keyFinalLit matchAltTail pt

/-- Extraction of `relevant_pages`: primary pattern with `json.loads` on
the re-bracketed capture, falling back to bare digit runs; then the
alternative bracket pattern. -/
def extractPages (pt : List Char) : Option Json :=
  match searchWith keyPagesLit matchColonBracket pt with
  | some cap =>
    match jsonLoads ('[' :: cap ++ [']']) with
    | some v => some v
    | none => some (Json.arr ((digitRuns cap).map fun n => Json.num n))
  | none =>
    match searchPagesAlt pt with
    | some cap => some (Json.arr ((digitRuns cap).map fun n => Json.num n))
    | none => none

def hasKeyJ (m : List (List Char × Json)) (k : List Char) : Bool :=
  m.any fun p => p.1 = k

/-- The regex-recovery stage of `parse` (`chains.py`, lines 133-201):
collect whatever fields were found (in the fixed extraction order), fill
missing fields with the canonical defaults, or return the diagnostic
default object when nothing was found. -/
def recover (pt : List Char) : Json :=
  let found :=
    (match extractStep pt with
     | some v => [(fieldStep, Json.str v)]
     | none => []) ++
    (match extractSummary pt with
     | some v => [(fieldSummary, Json.str v)]
     | none => []) ++
    (match extractPages pt with
     | some v => [(fieldPages, v)]
     | none => []) ++
    (match extractFinal pt with
     | some v => [(fieldFinal, Json.str v)]
     | none => [])
  if found.isEmpty then
    Json.obj
      [(fieldStep, Json.str ("无法解析响应格式，原始内容: ".toList ++ pt.take 200 ++ "...".toList)),
       (fieldSummary, Json.str "响应格式异常".toList),
       (fieldPages, Json.arr []),
       (fieldFinal, Json.str pt)]
  else
    let m1 := if hasKeyJ found fieldStep then found
              else found ++ [(fieldStep, Json.str "未找到分步分析".toList)]
    let m2 := if hasKeyJ m1 fieldSummary then m1
              else m1 ++ [(fieldSummary, Json.str "未找到推理摘要".toList)]
    let m3 := if hasKeyJ m2 fieldPages then m2
              else m2 ++ [(fieldPages, Json.arr [])]
    let m4 := if hasKeyJ m3 fieldFinal then m3
              else m3 ++ [(fieldFinal, Json.str pt)]
    Json.obj m4

/-- `StructuredOutputParser.parse` (`chains.py`, lines 67-211): strip,
fence-extract, then the decode cascade, then regex recovery.  The Python
outer `try/except` never fires (every stage already catches its own
errors), and the function is total. -/
def parse (text : List Char) : Json :=
  let pt := processFence (pyStrip text)
  match decodeStages pt with
  | some v => v
  | none => recover pt

/-- Does a parse result carry all four required fields? -/
def hasAllFields (j : Json) : Bool :=
  match j with
  | Json.obj m =>
    hasKeyJ m fieldStep && hasKeyJ m fieldSummary && hasKeyJ m fieldPages &&
      hasKeyJ m fieldFinal
  | _ => false

/-- Field lookup on a parse result. -/
def getField (j : Json) (k : List Char) : Option Json :=
  match j with
  | Json.obj m => (m.find? fun p => p.1 = k).map Prod.snd
  | _ => none

/-! ## StructuredAnswer and its canonical serialized form (for the
round-trip property) -/

/-- The value of `final_answer` in a valid StructuredAnswer per the data
model: string, (integer) number, boolean, or sequence of strings (the
sentinel `"N/A"` is a string). -/
inductive FinalAnswer where
  | fstr (v : List Char)
  | fint (v : ℤ)
  | fbool (v : Bool)
  | flist (vs : List (List Char))

/-- A valid StructuredAnswer: all four fields populated. -/
structure StructuredAnswer where
  step_by_step_analysis : List Char
  reasoning_summary : List Char
  relevant_pages : List ℤ
  final_answer : FinalAnswer

/-- Plain-ASCII characters: printable ASCII without the two JSON-string
metacharacters. -/
def plainAscii (c : Char) : Bool :=
  32 ≤ c.toNat && c.toNat ≤ 126 && c ≠ '"' && c ≠ '\\'

def plainStr (s : List Char) : Bool := s.all plainAscii

def plainFinal : FinalAnswer → Bool
  | .fstr v => plainStr v
  | .fint _ => true
  | .fbool _ => true
  | .flist vs => vs.all plainStr

def digitChar (n : ℕ) : Char := Char.ofNat (48 + n)

/-- Base-10 digits of a natural number, fuel-recursive (`natDigits`
supplies fuel `n+1`, always enough since a number has at most `n+1`
digits). -/
def natDigitsAux : ℕ → ℕ → List Char
  | 0, _ => []
  | f + 1, n => if n < 10 then [digitChar n] else natDigitsAux f (n / 10) ++ [digitChar (n % 10)]

def natDigits (n : ℕ) : List Char := natDigitsAux (n + 1) n

def intRender (i : ℤ) : List Char :=
  if i < 0 then '-' :: natDigits i.natAbs else natDigits i.natAbs

def renderStr (s : List Char) : List Char := '"' :: s ++ ['"']

def sepComma : List (List Char) → List Char
  | [] => []
  | [x] => x
  | x :: xs => x ++ ',' :: sepComma xs

def renderIntList (xs : List ℤ) : List Char :=
  '[' :: sepComma (xs.map intRender) ++ [']']

def renderStrList (xs : List (List Char)) : List Char :=
  '[' :: sepComma (xs.map renderStr) ++ [']']

def renderFinal : FinalAnswer → List Char
  | .fstr v => renderStr v
  | .fint i => intRender i
  | .fbool true => "true".toList
  | .fbool false => "false".toList
  | .flist vs => renderStrList vs

/-- The canonical structured-text form that stage 1 of `parse` accepts
(compact JSON object with the four keys in canonical order).  This is the
`serialize` of the round-trip property, defined from the spec's words
("the canonical structured-text form stage 1 accepts"). -/
def serialize (x : StructuredAnswer) : List Char :=
  braceL :: (renderStr fieldStep ++ ':' :: renderStr x.step_by_step_analysis
    ++ ',' :: renderStr fieldSummary ++ ':' :: renderStr x.reasoning_summary
    ++ ',' :: renderStr fieldPages ++ ':' :: renderIntList x.relevant_pages
    ++ ',' :: renderStr fieldFinal ++ ':' :: renderFinal x.final_answer) ++ [braceR]

def finalToJson : FinalAnswer → Json
  | .fstr v => Json.str v
  | .fint i => Json.num (i : ℚ)
  | .fbool b => Json.bool b
  | .flist vs => Json.arr (vs.map Json.str)

/-- The JSON value that `json.loads` yields on `serialize x`. -/
def toJson (x : StructuredAnswer) : Json :=
  Json.obj
    [(fieldStep, Json.str x.step_by_step_analysis),
     (fieldSummary, Json.str x.reasoning_summary),
     (fieldPages, Json.arr (x.relevant_pages.map fun i : ℤ => Json.num (i : ℚ))),
     (fieldFinal, finalToJson x.final_answer)]

def intListOfJson : List Json → Option (List ℤ)
  | [] => some []
  | Json.num q :: t =>
    if q.den = 1 then (intListOfJson t).map fun r => q.num :: r else none
  | _ => none

def strListOfJson : List Json → Option (List (List Char))
  | [] => some []
  | Json.str s :: t => (strListOfJson t).map fun r => s :: r
  | _ => none

def finalFromJson : Json → Option FinalAnswer
  | Json.str v => some (.fstr v)
  | Json.num q => if q.den = 1 then some (.fint q.num) else none
  | Json.bool b => some (.fbool b)
  | Json.arr vs => (strListOfJson vs).map .flist
  | _ => none

/-- Decoding a parse result back into a StructuredAnswer. -/
def fromJson (j : Json) : Option StructuredAnswer :=
  match getField j fieldStep, getField j fieldSummary,
        getField j fieldPages, getField j fieldFinal with
  | some (Json.str s), some (Json.str r), some (Json.arr ps), some fv =>
    match intListOfJson ps, finalFromJson fv with
    | some pages, some fa => some ⟨s, r, pages, fa⟩
    | _, _ => none
  | _, _, _, _ => none

/-! ## Sorting lemmas (stable descending sort) -/

theorem mem_insertDescBy {α : Type} (key : α → ℚ) (x a : α) (l : List α) :
    a ∈ insertDescBy key x l ↔ a = x ∨ a ∈ l := by
  induction l with
  | nil => simp [insertDescBy]
  | cons y ys ih =>
    simp only [insertDescBy]
    split
    · simp [List.mem_cons]
    · simp [List.mem_cons, ih]
      tauto

theorem mem_sortDescBy {α : Type} (key : α → ℚ) (a : α) (l : List α) :
    a ∈ sortDescBy key l ↔ a ∈ l := by
  induction l with
  | nil => simp [sortDescBy]
  | cons x xs ih =>
    simp [sortDescBy, mem_insertDescBy, ih, List.mem_cons]

theorem insertDescBy_perm {α : Type} (key : α → ℚ) (x : α) (l : List α) :
    (insertDescBy key x l).Perm (x :: l) := by
  induction l with
  | nil => simp [insertDescBy]
  | cons y ys ih =>
    simp only [insertDescBy]
    split
    · exact List.Perm.refl _
    · exact ((ih.cons y).trans (List.Perm.swap x y ys))

theorem sortDescBy_perm {α : Type} (key : α → ℚ) (l : List α) :
    (sortDescBy key l).Perm l := by
  induction l with
  | nil => simp [sortDescBy]
  | cons x xs ih =>
    exact (insertDescBy_perm key x (sortDescBy key xs)).trans (ih.cons x)

theorem insertDescBy_sorted {α : Type} (key : α → ℚ) (x : α) (l : List α)
    (h : l.Pairwise fun a b => key b ≤ key a) :
    (insertDescBy key x l).Pairwise fun a b => key b ≤ key a := by
  induction l with
  | nil => simp [insertDescBy]
  | cons y ys ih =>
    rcases List.pairwise_cons.1 h with ⟨hy, hys⟩
    simp only [insertDescBy]
    split
    · rename_i hxy
      refine List.pairwise_cons.2 ⟨?_, h⟩
      intro b hb
      rcases List.mem_cons.1 hb with hb | hb
      · exact hb ▸ hxy
      · exact le_trans (hy b hb) hxy
    · rename_i hxy
      refine List.pairwise_cons.2 ⟨?_, ih hys⟩
      intro b hb
      rcases (mem_insertDescBy key x b ys).1 hb with hb | hb
      · exact hb ▸ le_of_lt (lt_of_not_ge hxy)
      · exact hy b hb

theorem sortDescBy_sorted {α : Type} (key : α → ℚ) (l : List α) :
    (sortDescBy key l).Pairwise fun a b => key b ≤ key a := by
  induction l with
  | nil => simp [sortDescBy]
  | cons x xs ih => exact insertDescBy_sorted key x _ ih

theorem filter_insertDescBy {α : Type} (key : α → ℚ) (s : ℚ) (x : α) (l : List α) :
    (insertDescBy key x l).filter (fun a => decide (key a = s)) =
      if key x = s then x :: l.filter (fun a => decide (key a = s))
      else l.filter (fun a => decide (key a = s)) := by
  induction l with
  | nil =>
    simp only [insertDescBy, List.filter]
    split <;> simp_all
  | cons y ys ih =>
    simp only [insertDescBy]
    by_cases hxy : key x ≥ key y
    · rw [if_pos hxy]
      by_cases hx : key x = s
      · simp [List.filter_cons, hx]
      · simp [List.filter_cons, hx]
    · rw [if_neg hxy]
      have hlt : key x < key y := lt_of_not_ge hxy
      rw [List.filter_cons, ih]
      by_cases hx : key x = s
      · have hy : ¬(key y = s) := by
          intro h
          exact absurd (h.trans hx.symm ▸ hlt) (lt_irrefl _)
        simp [hx, hy, List.filter_cons]
      · by_cases hy : key y = s
        · simp [hx, hy, List.filter_cons]
        · simp [hx, hy, List.filter_cons]

theorem filter_sortDescBy {α : Type} (key : α → ℚ) (s : ℚ) (l : List α) :
    (sortDescBy key l).filter (fun a => decide (key a = s)) =
      l.filter (fun a => decide (key a = s)) := by
  induction l with
  | nil => rfl
  | cons x xs ih =>
    simp only [sortDescBy]
    rw [filter_insertDescBy]
    by_cases hx : key x = s
    · rw [if_pos hx, ih, List.filter_cons]
      simp [hx]
    · rw [if_neg hx, ih, List.filter_cons]
      simp [hx]

/-! ## Claim C2: weighted fusion formula, descending order, worked example -/

theorem preRerank_formula (vr kr : List ESVectorStore.Hit) (w : ℚ)
    (c : ESVectorStore.Cand) (hc : c ∈ ESVectorStore.preRerankResults vr kr w) :
    c.hybrid_score = c.vector_score * w + c.keyword_score * (1 - w) := by
  rcases List.mem_map.1 hc with ⟨e, _, rfl⟩
  rfl

/-- C2.  Every candidate returned by `hybrid_search` (no-rerank path)
carries `hybrid_score = vector_score*w + keyword_score*(1-w)`; the list is
sorted non-increasingly by that score; and fusing dense
`[(A,0.9),(B,0.4)]` with sparse `[(B,0.8),(C,0.5)]` at `w = 0.7` yields
the order `A (0.63) > B (0.52) > C (0.15)`. -/
theorem hybrid_search_weighted_sorted
    (vr kr : List ESVectorStore.Hit) (w : ℚ) (k : ℕ)
    (h0 : 0 ≤ w) (h1 : w ≤ 1) :
    (∀ c ∈ ESVectorStore.hybrid_search vr kr w k,
        c.hybrid_score = c.vector_score * w + c.keyword_score * (1 - w)) ∧
    (ESVectorStore.hybrid_search vr kr w k).Pairwise
        (fun a b => b.hybrid_score ≤ a.hybrid_score) ∧
    (ESVectorStore.hybrid_search
        [⟨"A".toList, [], [], 9/10⟩, ⟨"B".toList, [], [], 4/10⟩]
        [⟨"B".toList, [], [], 8/10⟩, ⟨"C".toList, [], [], 5/10⟩]
        (7/10) 5).map (fun c => (c.id, c.hybrid_score)) =
      [("A".toList, 63/100), ("B".toList, 52/100), ("C".toList, 15/100)] := by
  refine ⟨?_, ?_, ?_⟩
  · intro c hc
    have hc' : c ∈ ESVectorStore.fusedResults vr kr w := List.mem_of_mem_take hc
    have hc'' : c ∈ ESVectorStore.preRerankResults vr kr w :=
      (mem_sortDescBy _ c _).1 hc'
    exact preRerank_formula vr kr w c hc''
  · exact (sortDescBy_sorted (fun c : ESVectorStore.Cand => c.hybrid_score) _).sublist
      (List.take_sublist k _)
  · norm_num [ESVectorStore.hybrid_search, ESVectorStore.fusedResults,
      ESVectorStore.preRerankResults, ESVectorStore.buildAllResults,
      ESVectorStore.addVectorHit, ESVectorStore.addKeywordHit,
      sortDescBy, insertDescBy]

/-- Witness for C2 at concrete inputs. -/
theorem hybrid_search_weighted_sorted_witness :
    (0 : ℚ) ≤ 7/10 ∧ (7 : ℚ)/10 ≤ 1 ∧
    ((ESVectorStore.hybrid_search
        [⟨"A".toList, [], [], 9/10⟩, ⟨"B".toList, [], [], 4/10⟩]
        [⟨"B".toList, [], [], 8/10⟩, ⟨"C".toList, [], [], 5/10⟩]
        (7/10) 5).map (fun c => (c.id, c.hybrid_score)) =
      [("A".toList, 63/100), ("B".toList, 52/100), ("C".toList, 15/100)]) :=
  ⟨by norm_num, by norm_num,
    (hybrid_search_weighted_sorted [] [] (7/10) 5 (by norm_num) (by norm_num)).2.2⟩

/-! ## Claim C3: dedup invariant of the fusion map -/

theorem addVectorHit_keys (m : List ESVectorStore.Entry) (h : ESVectorStore.Hit) :
    (ESVectorStore.addVectorHit m h).map ESVectorStore.Entry.id =
      if h.id ∈ m.map ESVectorStore.Entry.id then m.map ESVectorStore.Entry.id
      else m.map ESVectorStore.Entry.id ++ [h.id] := by
  induction m with
  | nil => simp [ESVectorStore.addVectorHit]
  | cons e t ih =>
    simp only [ESVectorStore.addVectorHit]
    by_cases he : e.id = h.id
    · simp [he]
    · have : ¬(h.id = e.id) := fun hh => he hh.symm
      simp [he, ih, this]
      split <;> simp

theorem addKeywordHit_keys (m : List ESVectorStore.Entry) (h : ESVectorStore.Hit) :
    (ESVectorStore.addKeywordHit m h).map ESVectorStore.Entry.id =
      if h.id ∈ m.map ESVectorStore.Entry.id then m.map ESVectorStore.Entry.id
      else m.map ESVectorStore.Entry.id ++ [h.id] := by
  induction m with
  | nil => simp [ESVectorStore.addKeywordHit]
  | cons e t ih =>
    simp only [ESVectorStore.addKeywordHit]
    by_cases he : e.id = h.id
    · simp [he]
    · have : ¬(h.id = e.id) := fun hh => he hh.symm
      simp [he, ih, this]
      split <;> simp

theorem addVectorHit_nodup (m : List ESVectorStore.Entry) (h : ESVectorStore.Hit)
    (hn : (m.map ESVectorStore.Entry.id).Nodup) :
    ((ESVectorStore.addVectorHit m h).map ESVectorStore.Entry.id).Nodup := by
  rw [addVectorHit_keys]
  split
  · exact hn
  · rename_i hmem
    exact List.Nodup.append hn (List.nodup_singleton _) (by
      intro a ha hb
      rcases List.mem_singleton.1 hb with rfl
      exact hmem ha)

theorem addKeywordHit_nodup (m : List ESVectorStore.Entry) (h : ESVectorStore.Hit)
    (hn : (m.map ESVectorStore.Entry.id).Nodup) :
    ((ESVectorStore.addKeywordHit m h).map ESVectorStore.Entry.id).Nodup := by
  rw [addKeywordHit_keys]
  split
  · exact hn
  · rename_i hmem
    exact List.Nodup.append hn (List.nodup_singleton _) (by
      intro a ha hb
      rcases List.mem_singleton.1 hb with rfl
      exact hmem ha)

theorem addVectorHit_find_eq (m : List ESVectorStore.Entry) (h : ESVectorStore.Hit) :
    (ESVectorStore.addVectorHit m h).find? (fun e => e.id = h.id) =
      some ⟨h.id, h.content, h.metadata, h.score, 0⟩ := by
  induction m with
  | nil => simp [ESVectorStore.addVectorHit, List.find?]
  | cons e t ih =>
    simp only [ESVectorStore.addVectorHit]
    by_cases he : e.id = h.id
    · simp [he, List.find?]
    · simp [he, List.find?, ih]

theorem addVectorHit_find_ne (m : List ESVectorStore.Entry) (h : ESVectorStore.Hit)
    (x : List Char) (hx : x ≠ h.id) :
    (ESVectorStore.addVectorHit m h).find? (fun e => e.id = x) =
      m.find? (fun e => e.id = x) := by
  have h1 : ¬(h.id = x) := fun hh => hx hh.symm
  induction m with
  | nil => simp [ESVectorStore.addVectorHit, List.find?, h1]
  | cons e t ih =>
    simp only [ESVectorStore.addVectorHit]
    by_cases he : e.id = h.id
    · simp [he, List.find?, h1]
    · by_cases hex : e.id = x
      · simp [he, List.find?, hex, hx]
      · simp [he, List.find?, hex, ih]

theorem addKeywordHit_find_eq (m : List ESVectorStore.Entry) (h : ESVectorStore.Hit) :
    (ESVectorStore.addKeywordHit m h).find? (fun e => e.id = h.id) =
      some (match m.find? (fun e => e.id = h.id) with
            | some e => { e with keyword_score := h.score }
            | none => ⟨h.id, h.content, h.metadata, 0, h.score⟩) := by
  induction m with
  | nil => simp [ESVectorStore.addKeywordHit, List.find?]
  | cons e t ih =>
    simp only [ESVectorStore.addKeywordHit]
    by_cases he : e.id = h.id
    · simp [he, List.find?]
    · simp [he, List.find?, ih]

theorem addKeywordHit_find_ne (m : List ESVectorStore.Entry) (h : ESVectorStore.Hit)
    (x : List Char) (hx : x ≠ h.id) :
    (ESVectorStore.addKeywordHit m h).find? (fun e => e.id = x) =
      m.find? (fun e => e.id = x) := by
  have h1 : ¬(h.id = x) := fun hh => hx hh.symm
  induction m with
  | nil => simp [ESVectorStore.addKeywordHit, List.find?, h1]
  | cons e t ih =>
    simp only [ESVectorStore.addKeywordHit]
    by_cases he : e.id = h.id
    · simp [he, List.find?, h1]
    · by_cases hex : e.id = x
      · simp [he, List.find?, hex, hx]
      · simp [he, List.find?, hex, ih]

theorem foldV_nodup (hs : List ESVectorStore.Hit) (m : List ESVectorStore.Entry)
    (hn : (m.map ESVectorStore.Entry.id).Nodup) :
    ((hs.foldl ESVectorStore.addVectorHit m).map ESVectorStore.Entry.id).Nodup := by
  induction hs generalizing m with
  | nil => exact hn
  | cons a t ih => exact ih _ (addVectorHit_nodup m a hn)

theorem foldK_nodup (hs : List ESVectorStore.Hit) (m : List ESVectorStore.Entry)
    (hn : (m.map ESVectorStore.Entry.id).Nodup) :
    ((hs.foldl ESVectorStore.addKeywordHit m).map ESVectorStore.Entry.id).Nodup := by
  induction hs generalizing m with
  | nil => exact hn
  | cons a t ih => exact ih _ (addKeywordHit_nodup m a hn)

theorem foldV_find_not_mem (hs : List ESVectorStore.Hit) (m : List ESVectorStore.Entry)
    (x : List Char) (hx : x ∉ hs.map ESVectorStore.Hit.id) :
    (hs.foldl ESVectorStore.addVectorHit m).find? (fun e => e.id = x) =
      m.find? (fun e => e.id = x) := by
  induction hs generalizing m with
  | nil => rfl
  | cons a t ih =>
    have hxa : x ≠ a.id := by
      intro hh
      exact hx (by simp [hh])
    have hxt : x ∉ t.map ESVectorStore.Hit.id := by
      intro hh
      exact hx (by simp [hh])
    rw [List.foldl_cons, ih _ hxt, addVectorHit_find_ne m a x hxa]

theorem foldK_find_not_mem (hs : List ESVectorStore.Hit) (m : List ESVectorStore.Entry)
    (x : List Char) (hx : x ∉ hs.map ESVectorStore.Hit.id) :
    (hs.foldl ESVectorStore.addKeywordHit m).find? (fun e => e.id = x) =
      m.find? (fun e => e.id = x) := by
  induction hs generalizing m with
  | nil => rfl
  | cons a t ih =>
    have hxa : x ≠ a.id := by
      intro hh
      exact hx (by simp [hh])
    have hxt : x ∉ t.map ESVectorStore.Hit.id := by
      intro hh
      exact hx (by simp [hh])
    rw [List.foldl_cons, ih _ hxt, addKeywordHit_find_ne m a x hxa]

theorem foldV_find_mem (hs : List ESVectorStore.Hit) (m : List ESVectorStore.Entry)
    (h : ESVectorStore.Hit) (hmem : h ∈ hs)
    (hn : (hs.map ESVectorStore.Hit.id).Nodup) :
    (hs.foldl ESVectorStore.addVectorHit m).find? (fun e => e.id = h.id) =
      some ⟨h.id, h.content, h.metadata, h.score, 0⟩ := by
  induction hs generalizing m with
  | nil => cases hmem
  | cons a t ih =>
    rw [List.map_cons] at hn
    rcases List.nodup_cons.1 hn with ⟨hat, hnt⟩
    rcases List.mem_cons.1 hmem with rfl | hmem'
    · rw [List.foldl_cons,
        foldV_find_not_mem t _ h.id hat, addVectorHit_find_eq]
    · exact ih _ hmem' hnt

theorem foldK_find_mem (hs : List ESVectorStore.Hit) (m : List ESVectorStore.Entry)
    (h : ESVectorStore.Hit) (hmem : h ∈ hs)
    (hn : (hs.map ESVectorStore.Hit.id).Nodup) :
    (hs.foldl ESVectorStore.addKeywordHit m).find? (fun e => e.id = h.id) =
      some (match m.find? (fun e => e.id = h.id) with
            | some e => { e with keyword_score := h.score }
            | none => ⟨h.id, h.content, h.metadata, 0, h.score⟩) := by
  induction hs generalizing m with
  | nil => cases hmem
  | cons a t ih =>
    rw [List.map_cons] at hn
    rcases List.nodup_cons.1 hn with ⟨hat, hnt⟩
    rcases List.mem_cons.1 hmem with rfl | hmem'
    · rw [List.foldl_cons,
        foldK_find_not_mem t _ h.id hat, addKeywordHit_find_eq]
    · have hha : h.id ≠ a.id := by
        intro hh
        exact hat (hh ▸ List.mem_map_of_mem ESVectorStore.Hit.id hmem')
      rw [List.foldl_cons, ih _ hmem' hnt,
        addKeywordHit_find_ne m a h.id hha]

theorem countP_key_eq_one {α : Type} (f : α → List Char) (l : List α) (x : List Char)
    (hn : (l.map f).Nodup) (hx : ∃ a ∈ l, f a = x) :
    l.countP (fun a => f a = x) = 1 := by
  induction l with
  | nil => simp at hx
  | cons a t ih =>
    rw [List.map_cons] at hn
    rcases List.nodup_cons.1 hn with ⟨hat, hnt⟩
    by_cases hfa : f a = x
    · rw [List.countP_cons_of_pos _ _ (by simp [hfa])]
      have hzero : t.countP (fun a => f a = x) = 0 := by
        rw [List.countP_eq_zero]
        intro b hb
        simp only [decide_eq_true_eq]
        intro hfb
        exact hat (hfb.trans hfa.symm ▸ List.mem_map_of_mem f hb)
      rw [hzero]
    · rw [List.countP_cons_of_neg _ _ (by simp [hfa])]
      refine ih hnt ?_
      rcases hx with ⟨b, hb, hfb⟩
      rcases List.mem_cons.1 hb with rfl | hb'
      · exact absurd hfb hfa
      · exact ⟨b, hb', hfb⟩

/-- C3.  If a document id occurs in both the dense and the sparse results
(ids unique within each input list, as Elasticsearch guarantees per call),
the fused list has exactly one candidate with that id, carrying the dense
hit's score as `vector_score` and the sparse hit's score as
`keyword_score`; ids are unique within the fused list (and hence within
the truncated `hybrid_search` output). -/
theorem hybrid_search_dedup
    (vr kr : List ESVectorStore.Hit) (w : ℚ) (k : ℕ)
    (dv dk : ESVectorStore.Hit)
    (hnv : (vr.map ESVectorStore.Hit.id).Nodup)
    (hnk : (kr.map ESVectorStore.Hit.id).Nodup)
    (hdv : dv ∈ vr) (hdk : dk ∈ kr) (hid : dk.id = dv.id) :
    (ESVectorStore.fusedResults vr kr w).countP (fun c => c.id = dv.id) = 1 ∧
    (∃ c ∈ ESVectorStore.fusedResults vr kr w,
        c.id = dv.id ∧ c.vector_score = dv.score ∧ c.keyword_score = dk.score) ∧
    ((ESVectorStore.fusedResults vr kr w).map ESVectorStore.Cand.id).Nodup ∧
    ((ESVectorStore.hybrid_search vr kr w k).map ESVectorStore.Cand.id).Nodup := by
  have hfind : (ESVectorStore.buildAllResults vr kr).find? (fun e => e.id = dv.id) =
      some ⟨dv.id, dv.content, dv.metadata, dv.score, dk.score⟩ := by
    have hk := foldK_find_mem kr (vr.foldl ESVectorStore.addVectorHit []) dk hdk hnk
    rw [hid] at hk
    rw [foldV_find_mem vr [] dv hdv hnv] at hk
    exact hk
  have hmemE : (⟨dv.id, dv.content, dv.metadata, dv.score, dk.score⟩ :
      ESVectorStore.Entry) ∈ ESVectorStore.buildAllResults vr kr :=
    List.mem_of_find?_eq_some hfind
  have hkeysEq : (ESVectorStore.preRerankResults vr kr w).map ESVectorStore.Cand.id =
      (ESVectorStore.buildAllResults vr kr).map ESVectorStore.Entry.id := by
    unfold ESVectorStore.preRerankResults
    rw [List.map_map]
    rfl
  have hnodupB : ((ESVectorStore.buildAllResults vr kr).map ESVectorStore.Entry.id).Nodup :=
    foldK_nodup kr _ (foldV_nodup vr [] (by simp))
  have hpermMap : ((ESVectorStore.fusedResults vr kr w).map ESVectorStore.Cand.id).Perm
      ((ESVectorStore.buildAllResults vr kr).map ESVectorStore.Entry.id) := by
    rw [← hkeysEq]
    exact (sortDescBy_perm (fun c : ESVectorStore.Cand => c.hybrid_score) _).map _
  have hmemKey : dv.id ∈ (ESVectorStore.buildAllResults vr kr).map ESVectorStore.Entry.id :=
    List.mem_map_of_mem ESVectorStore.Entry.id hmemE
  have hnodupF : ((ESVectorStore.fusedResults vr kr w).map ESVectorStore.Cand.id).Nodup :=
    (hpermMap.nodup_iff).2 hnodupB
  refine ⟨?_, ?_, hnodupF, ?_⟩
  · have hstep : (ESVectorStore.fusedResults vr kr w).countP (fun c => c.id = dv.id) =
        (ESVectorStore.preRerankResults vr kr w).countP (fun c => c.id = dv.id) :=
      (sortDescBy_perm (fun c : ESVectorStore.Cand => c.hybrid_score) _).countP_eq _
    rw [hstep, ESVectorStore.preRerankResults, List.countP_map]
    exact countP_key_eq_one ESVectorStore.Entry.id _ dv.id hnodupB
      ⟨_, hmemE, rfl⟩
  · refine ⟨⟨dv.id, dv.content, dv.metadata,
      dv.score * w + dk.score * (1 - w), dv.score, dk.score⟩, ?_, rfl, rfl, rfl⟩
    rw [ESVectorStore.fusedResults, mem_sortDescBy]
    exact List.mem_map_of_mem _ hmemE
  · rw [ESVectorStore.hybrid_search, List.map_take]
    exact hnodupF.sublist (List.take_sublist k _)

/-- Witness for C3 at the concrete dense/sparse lists of the worked
example (id `B` occurs in both). -/
theorem hybrid_search_dedup_witness :
    (ESVectorStore.fusedResults
        [⟨"A".toList, [], [], 9/10⟩, ⟨"B".toList, [], [], 4/10⟩]
        [⟨"B".toList, [], [], 8/10⟩, ⟨"C".toList, [], [], 5/10⟩]
        (7/10)).countP (fun c => c.id = "B".toList) = 1 ∧
    (∃ c ∈ ESVectorStore.fusedResults
        [⟨"A".toList, [], [], 9/10⟩, ⟨"B".toList, [], [], 4/10⟩]
        [⟨"B".toList, [], [], 8/10⟩, ⟨"C".toList, [], [], 5/10⟩] (7/10),
        c.id = "B".toList ∧ c.vector_score = 4/10 ∧ c.keyword_score = 8/10) ∧
    ((ESVectorStore.fusedResults
        [⟨"A".toList, [], [], 9/10⟩, ⟨"B".toList, [], [], 4/10⟩]
        [⟨"B".toList, [], [], 8/10⟩, ⟨"C".toList, [], [], 5/10⟩]
        (7/10)).map ESVectorStore.Cand.id).Nodup ∧
    ((ESVectorStore.hybrid_search
        [⟨"A".toList, [], [], 9/10⟩, ⟨"B".toList, [], [], 4/10⟩]
        [⟨"B".toList, [], [], 8/10⟩, ⟨"C".toList, [], [], 5/10⟩]
        (7/10) 5).map ESVectorStore.Cand.id).Nodup :=
  hybrid_search_dedup
    [⟨"A".toList, [], [], 9/10⟩, ⟨"B".toList, [], [], 4/10⟩]
    [⟨"B".toList, [], [], 8/10⟩, ⟨"C".toList, [], [], 5/10⟩]
    (7/10) 5
    ⟨"B".toList, [], [], 4/10⟩ ⟨"B".toList, [], [], 8/10⟩
    (by decide) (by decide)
    (List.Mem.tail _ (List.Mem.head _)) (List.Mem.head _) rfl

/-! ## Claim C8: tie-breaking by first-seen insertion order -/

theorem mem_addVectorHit (m : List ESVectorStore.Entry) (h : ESVectorStore.Hit)
    (e : ESVectorStore.Entry) (he : e ∈ ESVectorStore.addVectorHit m h) :
    e ∈ m ∨ e = ⟨h.id, h.content, h.metadata, h.score, 0⟩ := by
  induction m with
  | nil => simp [ESVectorStore.addVectorHit] at he; exact Or.inr he
  | cons a t ih =>
    simp only [ESVectorStore.addVectorHit] at he
    by_cases ha : a.id = h.id
    · rw [if_pos ha] at he
      rcases List.mem_cons.1 he with rfl | he'
      · exact Or.inr rfl
      · exact Or.inl (List.mem_cons_of_mem a he')
    · rw [if_neg ha] at he
      rcases List.mem_cons.1 he with rfl | he'
      · exact Or.inl (List.mem_cons_self e t)
      · rcases ih he' with h1 | h1
        · exact Or.inl (List.mem_cons_of_mem a h1)
        · exact Or.inr h1

theorem foldV_ids (vs : List ESVectorStore.Hit) (m : List ESVectorStore.Entry)
    (p : List Char → Prop)
    (hm : ∀ e ∈ m, p e.id) (hv : ∀ h ∈ vs, p h.id) :
    ∀ e ∈ vs.foldl ESVectorStore.addVectorHit m, p e.id := by
  induction vs generalizing m with
  | nil => exact hm
  | cons a t ih =>
    refine ih _ ?_ (fun h hh => hv h (List.mem_cons_of_mem a hh))
    intro e he
    rcases mem_addVectorHit m a e he with h1 | h1
    · exact hm e h1
    · rw [h1]
      exact hv a (List.mem_cons_self a t)

theorem addKeywordHit_not_mem_append (m : List ESVectorStore.Entry)
    (h : ESVectorStore.Hit) (hx : h.id ∉ m.map ESVectorStore.Entry.id) :
    ESVectorStore.addKeywordHit m h = m ++ [⟨h.id, h.content, h.metadata, 0, h.score⟩] := by
  induction m with
  | nil => simp [ESVectorStore.addKeywordHit]
  | cons a t ih =>
    have ha : ¬(a.id = h.id) := by
      intro hh
      exact hx (by simp [hh.symm])
    have ht : h.id ∉ t.map ESVectorStore.Entry.id := by
      intro hh
      exact hx (by simp [hh])
    simp only [ESVectorStore.addKeywordHit, if_neg ha, ih ht, List.cons_append]

theorem foldK_split (ks : List ESVectorStore.Hit) (m : List ESVectorStore.Entry) :
    ∃ m1 sp, ks.foldl ESVectorStore.addKeywordHit m = m1 ++ sp ∧
      m1.map ESVectorStore.Entry.id = m.map ESVectorStore.Entry.id ∧
      ∀ e ∈ sp, e.id ∉ m.map ESVectorStore.Entry.id := by
  induction ks generalizing m with
  | nil => exact ⟨m, [], by simp, rfl, by simp⟩
  | cons a t ih =>
    rw [List.foldl_cons]
    by_cases ha : a.id ∈ m.map ESVectorStore.Entry.id
    · have hkeys : (ESVectorStore.addKeywordHit m a).map ESVectorStore.Entry.id =
          m.map ESVectorStore.Entry.id := by
        rw [addKeywordHit_keys, if_pos ha]
      rcases ih (ESVectorStore.addKeywordHit m a) with ⟨m1, sp, heq, hk, hsp⟩
      exact ⟨m1, sp, heq, hk.trans hkeys, fun e he => (hkeys ▸ hsp e he : _)⟩
    · rw [addKeywordHit_not_mem_append m a ha]
      rcases ih (m ++ [⟨a.id, a.content, a.metadata, 0, a.score⟩]) with
        ⟨m1, sp, heq, hk, hsp⟩
      have hkapp : m1.map ESVectorStore.Entry.id =
          m.map ESVectorStore.Entry.id ++ [a.id] := by
        rw [hk, List.map_append]
        rfl
      refine ⟨m1.take m.length, m1.drop m.length ++ sp, ?_, ?_, ?_⟩
      · rw [← List.append_assoc, List.take_append_drop]
        exact heq
      · have hmt : (m1.take m.length).map ESVectorStore.Entry.id =
            ((m.map ESVectorStore.Entry.id) ++ [a.id]).take m.length := by
          rw [List.map_take, hkapp]
        rw [hmt]
        exact List.take_left' (List.length_map m ESVectorStore.Entry.id)
      · intro e he
        rcases List.mem_append.1 he with he' | he'
        · have hidmem : e.id ∈ (m1.drop m.length).map ESVectorStore.Entry.id :=
            List.mem_map_of_mem ESVectorStore.Entry.id he'
          rw [List.map_drop, hkapp,
            List.drop_left' (List.length_map m ESVectorStore.Entry.id)] at hidmem
          have heid : e.id = a.id := List.mem_singleton.1 hidmem
          rw [heid]
          exact ha
        · intro hc
          exact hsp e he' (by simp [hc])

theorem addVectorHit_keys_mono (m : List ESVectorStore.Entry)
    (h : ESVectorStore.Hit) (x : List Char)
    (hx : x ∈ m.map ESVectorStore.Entry.id) :
    x ∈ (ESVectorStore.addVectorHit m h).map ESVectorStore.Entry.id := by
  rw [addVectorHit_keys]
  split
  · exact hx
  · exact List.mem_append_left _ hx

theorem foldV_keys_mono (vs : List ESVectorStore.Hit) (m : List ESVectorStore.Entry)
    (x : List Char) (hx : x ∈ m.map ESVectorStore.Entry.id) :
    x ∈ (vs.foldl ESVectorStore.addVectorHit m).map ESVectorStore.Entry.id := by
  induction vs generalizing m with
  | nil => exact hx
  | cons a t ih => exact ih _ (addVectorHit_keys_mono m a x hx)

theorem foldV_keys_complete (vs : List ESVectorStore.Hit) (m : List ESVectorStore.Entry) :
    ∀ h ∈ vs, h.id ∈ (vs.foldl ESVectorStore.addVectorHit m).map ESVectorStore.Entry.id := by
  induction vs generalizing m with
  | nil => intro h hh; cases hh
  | cons a t ih =>
    intro h hh
    rcases List.mem_cons.1 hh with rfl | hh'
    · refine foldV_keys_mono t _ h.id ?_
      rw [addVectorHit_keys]
      split
      · assumption
      · exact List.mem_append_right _ (List.mem_singleton.2 rfl)
    · exact ih _ h hh'

/-- C8.  Candidates with equal `hybrid_score` keep their first-seen
insertion order through the sort (Python `list.sort` is stable, the
fusion dict is insertion-ordered), the pre-sort list is all
dense-inserted entries followed by sparse-only entries, and the
`hybrid_search` output is a prefix of the fused order — so the fused
ranking is one deterministic ordering. -/
theorem fusion_tie_stability (vr kr : List ESVectorStore.Hit) (w s : ℚ) (k : ℕ) :
    ((ESVectorStore.fusedResults vr kr w).filter (fun c => c.hybrid_score = s) =
      (ESVectorStore.preRerankResults vr kr w).filter (fun c => c.hybrid_score = s)) ∧
    (∃ dp sp, ESVectorStore.preRerankResults vr kr w = dp ++ sp ∧
      (∀ c ∈ dp, c.id ∈ vr.map ESVectorStore.Hit.id) ∧
      (∀ c ∈ sp, c.id ∉ vr.map ESVectorStore.Hit.id)) ∧
    ESVectorStore.hybrid_search vr kr w k =
      (ESVectorStore.fusedResults vr kr w).take k := by
  refine ⟨filter_sortDescBy _ s _, ?_, rfl⟩
  rcases foldK_split kr (vr.foldl ESVectorStore.addVectorHit []) with
    ⟨m1, sp, heq, hk, hsp⟩
  have hids : ∀ e ∈ vr.foldl ESVectorStore.addVectorHit [],
      e.id ∈ vr.map ESVectorStore.Hit.id :=
    foldV_ids vr [] (fun x => x ∈ vr.map ESVectorStore.Hit.id) (by simp)
      (fun h hh => List.mem_map_of_mem ESVectorStore.Hit.id hh)
  refine ⟨m1.map (fun e => ⟨e.id, e.content, e.metadata,
      e.vector_score * w + e.keyword_score * (1 - w),
      e.vector_score, e.keyword_score⟩),
    sp.map (fun e => ⟨e.id, e.content, e.metadata,
      e.vector_score * w + e.keyword_score * (1 - w),
      e.vector_score, e.keyword_score⟩), ?_, ?_, ?_⟩
  · rw [ESVectorStore.preRerankResults, ESVectorStore.buildAllResults, heq,
      List.map_append]
  · intro c hc
    rcases List.mem_map.1 hc with ⟨e, he, rfl⟩
    have : e.id ∈ m1.map ESVectorStore.Entry.id :=
      List.mem_map_of_mem ESVectorStore.Entry.id he
    rw [hk] at this
    rcases List.mem_map.1 this with ⟨e', he', hid⟩
    exact hid ▸ hids e' he'
  · intro c hc
    rcases List.mem_map.1 hc with ⟨e, he, rfl⟩
    intro hmem
    rcases List.mem_map.1 hmem with ⟨h, hh, hid⟩
    have hid' : h.id = e.id := hid
    exact hsp e he (hid' ▸ foldV_keys_complete vr [] h hh)

/-! ## Claims C4, C5, C6: reranker strategies -/

theorem sortDescBy_length {α : Type} (key : α → ℚ) (l : List α) :
    (sortDescBy key l).length = l.length :=
  (sortDescBy_perm key l).length_eq

theorem passThrough_length (docs : List (List Char)) (k : ℕ) :
    (Reranker.passThrough docs k).length = min k docs.length := by
  simp [Reranker.passThrough]

theorem passThrough_indices (docs : List (List Char)) (k : ℕ) :
    (Reranker.passThrough docs k).map (fun o => o.index) =
      List.range (min k docs.length) := by
  rw [Reranker.passThrough, List.map_map]
  have : (fun o : Reranker.Outcome => o.index) ∘
      (fun p : ℕ × List Char => (⟨p.1, 1 / ((p.1 : ℚ) + 1), p.2, p.1,
        1 / ((p.1 : ℚ) + 1)⟩ : Reranker.Outcome)) = Prod.fst := rfl
  rw [this, List.enum_map_fst, List.length_take]

theorem passThrough_texts (docs : List (List Char)) (k : ℕ) :
    (Reranker.passThrough docs k).map (fun o => o.text) = docs.take k := by
  rw [Reranker.passThrough, List.map_map]
  have : (fun o : Reranker.Outcome => o.text) ∘
      (fun p : ℕ × List Char => (⟨p.1, 1 / ((p.1 : ℚ) + 1), p.2, p.1,
        1 / ((p.1 : ℚ) + 1)⟩ : Reranker.Outcome)) = Prod.snd := rfl
  rw [this, List.enum_map_snd]

theorem passThrough_scores (docs : List (List Char)) (k : ℕ) :
    ∀ o ∈ Reranker.passThrough docs k,
      o.score = 1 / ((o.index : ℚ) + 1) ∧ o.rerank_score = o.score ∧
      o.original_rank = o.index := by
  intro o ho
  rcases List.mem_map.1 ho with ⟨p, _, rfl⟩
  exact ⟨rfl, rfl, rfl⟩

/-- C6.  Any strategy in degraded (uninitialized) mode returns exactly the
pass-through list: `min(k, len(documents))` outcomes preserving the input
order (indices `0..min-1`, texts `documents[:k]`). -/
theorem degraded_rerank_passthrough (mt : Reranker.ModelType)
    (env : Reranker.RerankEnv) (hp cp : Bool) (q : List Char)
    (docs : List (List Char)) (k : ℕ) :
    Reranker.rerank ⟨mt, false, hp, cp⟩ env q docs k =
      Reranker.passThrough docs k ∧
    (Reranker.passThrough docs k).length = min k docs.length ∧
    (Reranker.passThrough docs k).map (fun o => o.index) =
      List.range (min k docs.length) ∧
    (Reranker.passThrough docs k).map (fun o => o.text) = docs.take k := by
  refine ⟨?_, passThrough_length docs k, passThrough_indices docs k,
    passThrough_texts docs k⟩
  cases docs with
  | nil => cases mt <;> simp [Reranker.rerank, Reranker.passThrough]
  | cons d ds =>
    cases mt <;>
      simp [Reranker.rerank, Reranker.crossEncoderRerank,
        Reranker.jinaApiRerank, Reranker.llmRerank]

/-- C4 (amended).  For an initialized `jina_api` reranker, a raised request
(timeout, connection error, non-JSON body) or a non-success status degrades
that call to pass-through — first `min(topK, len(documents))` documents in
input order with scores `1/(rank+1)` — and leaves the reranker state
untouched, so the next call issues the remote request again.  (A success
status whose JSON body lacks the `results` key instead yields an empty
list; see the counterexample.) -/
theorem jina_degrades_to_passthrough (st : Reranker.JinaState)
    (resp : Reranker.RemoteOutcome) (docs : List (List Char)) (k : ℕ)
    (hfail : resp = Reranker.RemoteOutcome.raised ∨
      ∃ code body, resp = Reranker.RemoteOutcome.status code body ∧ code ≠ 200) :
    (Reranker.jinaApiRerankMethod st resp docs k).1 = Reranker.passThrough docs k ∧
    (Reranker.jinaApiRerankMethod st resp docs k).2 = st ∧
    (Reranker.passThrough docs k).length = min k docs.length ∧
    (Reranker.passThrough docs k).map (fun o => o.text) = docs.take k ∧
    ∀ o ∈ Reranker.passThrough docs k, o.score = 1 / ((o.index : ℚ) + 1) := by
  refine ⟨?_, rfl, passThrough_length docs k, passThrough_texts docs k,
    fun o ho => (passThrough_scores docs k o ho).1⟩
  rcases hfail with rfl | ⟨code, body, rfl, hcode⟩
  · cases st.initialized <;> cases st.headersPresent <;>
      simp [Reranker.jinaApiRerankMethod, Reranker.jinaApiRerank]
  · cases st.initialized <;> cases st.headersPresent <;>
      simp [Reranker.jinaApiRerankMethod, Reranker.jinaApiRerank, hcode]

/-- Witness for C4 at a concrete 404 response. -/
theorem jina_degrades_to_passthrough_witness :
    (Reranker.jinaApiRerankMethod ⟨true, true⟩
        (Reranker.RemoteOutcome.status 404 none) [['d']] 1).1 =
      Reranker.passThrough [['d']] 1 ∧
    (Reranker.jinaApiRerankMethod ⟨true, true⟩
        (Reranker.RemoteOutcome.status 404 none) [['d']] 1).2 = (⟨true, true⟩ : Reranker.JinaState) ∧
    (Reranker.passThrough [['d']] 1).length = min 1 ([['d']] : List (List Char)).length ∧
    (Reranker.passThrough [['d']] 1).map (fun o => o.text) =
      ([['d']] : List (List Char)).take 1 ∧
    ∀ o ∈ Reranker.passThrough [['d']] 1, o.score = 1 / ((o.index : ℚ) + 1) :=
  jina_degrades_to_passthrough ⟨true, true⟩
    (Reranker.RemoteOutcome.status 404 none) [['d']] 1
    (Or.inr ⟨404, none, rfl, by decide⟩)

/-- C4 counterexample: a success-status response without a `results` key
(a malformed response per the remote contract) yields the empty list, not
pass-through. -/
theorem jina_missing_results_counterexample :
    Reranker.jinaApiRerank true true
        (Reranker.RemoteOutcome.status 200 none) [['d']] 1 = [] ∧
    Reranker.jinaApiRerank true true
        (Reranker.RemoteOutcome.status 200 none) [['d']] 1 ≠
      Reranker.passThrough [['d']] 1 := by
  refine ⟨rfl, ?_⟩
  intro h
  have h1 : (Reranker.passThrough [['d']] 1).length = 1 := rfl
  rw [← h] at h1
  exact absurd h1 (by decide)

theorem llmLoop_length (rs : List (Option ℚ)) (docs : List (List Char)) :
    ∀ i k, i < k →
      (Reranker.llmLoop rs docs i k).length = min (k - i) docs.length := by
  induction docs with
  | nil =>
    intro i k hik
    simp [Reranker.llmLoop]
  | cons d ds ih =>
    intro i k hik
    simp only [Reranker.llmLoop]
    split
    · rename_i hbreak
      simp only [List.length_singleton, List.length_cons, List.length_nil]
      omega
    · rename_i hbreak
      simp only [List.length_cons]
      rw [ih (i + 1) k (by omega)]
      omega

theorem crossEncoderRerank_length (init : Bool) (predict : Except Unit (ℕ → ℚ))
    (docs : List (List Char)) (k : ℕ) :
    (Reranker.crossEncoderRerank init predict docs k).length = min k docs.length := by
  cases init
  · simp [Reranker.crossEncoderRerank, passThrough_length]
  · cases predict with
    | error e => simp [Reranker.crossEncoderRerank, passThrough_length]
    | ok f => simp [Reranker.crossEncoderRerank, sortDescBy_length]

theorem llmRerank_length (init cp : Bool) (rankE : Except Unit (List (Option ℚ)))
    (docs : List (List Char)) (k : ℕ) (hk : 1 ≤ k) :
    (Reranker.llmRerank init cp rankE docs k).length = min k docs.length := by
  cases init
  · simp [Reranker.llmRerank, passThrough_length]
  · cases cp
    · simp [Reranker.llmRerank, passThrough_length]
    · cases rankE with
      | error e => simp [Reranker.llmRerank, passThrough_length]
      | ok rs =>
        simp only [Reranker.llmRerank]
        rw [if_neg (by simp)]
        rw [sortDescBy_length, llmLoop_length rs docs 0 k (by omega)]
        simp

theorem jina_success_length (items : List Reranker.JinaItem)
    (docs : List (List Char)) (k : ℕ) :
    (Reranker.jinaApiRerank true true
        (Reranker.RemoteOutcome.status 200 (some items)) docs k).length =
      items.length := by
  simp [Reranker.jinaApiRerank]

/-- C5 (amended).  `rerank` returns exactly `min(topK, len(documents))`
outcomes for the `cross_encoder` variant (all paths) and for the `llm`
variant when `topK ≥ 1`; but the `jina_api` success path returns one
outcome per entry of the response's `results` list (whatever its length),
so the invariant does not hold for every variant. -/
theorem rerank_length_amended
    (q : List Char) (docs : List (List Char)) (k : ℕ) (hk : 1 ≤ k)
    (initA initB hp cp : Bool)
    (predict : Except Unit (ℕ → ℚ)) (jr : Reranker.RemoteOutcome)
    (rankE : Except Unit (List (Option ℚ))) (items : List Reranker.JinaItem) :
    (Reranker.rerank ⟨Reranker.ModelType.cross_encoder, initA, hp, cp⟩
        ⟨predict, jr, rankE⟩ q docs k).length = min k docs.length ∧
    (Reranker.rerank ⟨Reranker.ModelType.llm, initB, hp, cp⟩
        ⟨predict, jr, rankE⟩ q docs k).length = min k docs.length ∧
    (Reranker.rerank ⟨Reranker.ModelType.jina_api, true, true, cp⟩
        ⟨predict, Reranker.RemoteOutcome.status 200 (some items), rankE⟩
        q docs k).length = if docs.isEmpty then 0 else items.length := by
  refine ⟨?_, ?_, ?_⟩
  · cases docs with
    | nil => simp [Reranker.rerank]
    | cons d ds => simp [Reranker.rerank, crossEncoderRerank_length]
  · cases docs with
    | nil => simp [Reranker.rerank]
    | cons d ds =>
      simp only [Reranker.rerank, List.isEmpty_cons, Bool.false_eq_true, if_false]
      exact llmRerank_length initB cp rankE (d :: ds) k hk
  · cases docs with
    | nil => simp [Reranker.rerank]
    | cons d ds =>
      simp only [Reranker.rerank, List.isEmpty_cons, Bool.false_eq_true, if_false]
      rw [jina_success_length]

/-- Witness for C5 at concrete inputs. -/
theorem rerank_length_amended_witness :
    (Reranker.rerank ⟨Reranker.ModelType.cross_encoder, false, true, true⟩
        ⟨Except.error (), Reranker.RemoteOutcome.raised, Except.error ()⟩
        [] [['a'], ['b']] 2).length = min 2 ([['a'], ['b']] : List (List Char)).length ∧
    (Reranker.rerank ⟨Reranker.ModelType.llm, false, true, true⟩
        ⟨Except.error (), Reranker.RemoteOutcome.raised, Except.error ()⟩
        [] [['a'], ['b']] 2).length = min 2 ([['a'], ['b']] : List (List Char)).length ∧
    (Reranker.rerank ⟨Reranker.ModelType.jina_api, true, true, true⟩
        ⟨Except.error (),
         Reranker.RemoteOutcome.status 200 (some [⟨some 0, some (1/2)⟩]),
         Except.error ()⟩
        [] [['a'], ['b']] 2).length =
      if ([['a'], ['b']] : List (List Char)).isEmpty then 0
      else ([(⟨some 0, some (1/2)⟩ : Reranker.JinaItem)] : List Reranker.JinaItem).length :=
  rerank_length_amended [] [['a'], ['b']] 2 (by decide) false false true true
    (Except.error ()) Reranker.RemoteOutcome.raised (Except.error ())
    [⟨some 0, some (1/2)⟩]

/-- C5 counterexample: an initialized `jina_api` reranker whose remote
reply carries a single `results` entry returns 1 outcome for 2 documents
and `topK = 2`, not `min(topK, len(documents)) = 2`. -/
theorem rerank_length_counterexample :
    (Reranker.rerank ⟨Reranker.ModelType.jina_api, true, true, true⟩
        ⟨Except.error (),
         Reranker.RemoteOutcome.status 200 (some [⟨some 0, some (1/2)⟩]),
         Except.error ()⟩
        [] [['a'], ['b']] 2).length = 1 ∧
    min 2 ([['a'], ['b']] : List (List Char)).length = 2 := by
  exact ⟨rfl, rfl⟩

/-! ## Claim C10: the two answer-type classifiers agree -/

/-- C10.  `KnowledgeBase.determine_answer_type` and
`AnswerTypeClassifier.determine_answer_type` are textually identical
keyword classifiers; they agree on every question, so both pipelines
select the same answer type. -/
theorem classifier_equivalence (q : List Char) :
    KBModel.determine_answer_type q = Chains.determine_answer_type q := rfl

/-! ## Claims C1 and C7: the parse cascade -/

theorem hasKeyJ_append (m l : List (List Char × Json)) (k : List Char) :
    hasKeyJ (m ++ l) k = (hasKeyJ m k || hasKeyJ l k) := by
  unfold hasKeyJ
  exact List.any_append

theorem hasKeyJ_ensure (m : List (List Char × Json)) (k : List Char) (v : Json) :
    hasKeyJ (if hasKeyJ m k then m else m ++ [(k, v)]) k = true := by
  cases h : hasKeyJ m k
  · rw [if_neg (by simp [h]), hasKeyJ_append, h]
    simp [hasKeyJ]
  · simp [h]

theorem hasKeyJ_ensure_mono (m : List (List Char × Json)) (k k' : List Char)
    (v : Json) (h : hasKeyJ m k' = true) :
    hasKeyJ (if hasKeyJ m k then m else m ++ [(k, v)]) k' = true := by
  cases hk : hasKeyJ m k
  · rw [if_neg (by simp [hk]), hasKeyJ_append, h]
    simp
  · simpa [hk]

/-- The regex-recovery stage always returns an object carrying all four
required fields (found fields kept, missing ones defaulted). -/
theorem recover_hasAllFields (pt : List Char) :
    hasAllFields (recover pt) = true := by
  rw [recover]
  split
  · rfl
  · simp only [hasAllFields, Bool.and_eq_true]
    refine ⟨⟨⟨?_, ?_⟩, ?_⟩, ?_⟩
    · exact hasKeyJ_ensure_mono _ _ _ _
        (hasKeyJ_ensure_mono _ _ _ _
          (hasKeyJ_ensure_mono _ _ _ _ (hasKeyJ_ensure _ _ _)))
    · exact hasKeyJ_ensure_mono _ _ _ _
        (hasKeyJ_ensure_mono _ _ _ _ (hasKeyJ_ensure _ _ _))
    · exact hasKeyJ_ensure_mono _ _ _ _ (hasKeyJ_ensure _ _ _)
    · exact hasKeyJ_ensure _ _ _

/-- C1 (amended).  `parse` is a total function (never raises); whenever
every JSON-decoding attempt fails, the result comes from the recovery
stage and carries all four fields.  But a successful JSON decode is
returned as-is without field validation, so valid-JSON input lacking the
four keys comes back without them (see the counterexample). -/
theorem parse_fields_amended (t : List Char)
    (hfail : decodeStages (processFence (pyStrip t)) = none) :
    parse t = recover (processFence (pyStrip t)) ∧
    hasAllFields (parse t) = true := by
  constructor
  · simp only [parse, hfail]
  · simp only [parse, hfail]
    exact recover_hasAllFields _

/-- Witness for C1 at the plain-prose input `"hello"`. -/
theorem parse_fields_amended_witness :
    parse "hello".toList = recover (processFence (pyStrip "hello".toList)) ∧
    hasAllFields (parse "hello".toList) = true :=
  parse_fields_amended "hello".toList rfl

/-- C1 counterexample: the input `"{}"` is valid JSON, so stage 1 returns
the empty object as-is — the four fields are not populated. -/
theorem parse_unvalidated_counterexample :
    parse "\x7b\x7d".toList = Json.obj [] ∧
    hasAllFields (parse "\x7b\x7d".toList) = false :=
  ⟨rfl, rfl⟩

/-- C7 (amended).  The fence-wrapped reply parses (fence-strip, then
direct JSON parse) to an object whose `final_answer` is `"42"` — but the
successful JSON parse is returned as-is, so the three missing fields are
NOT filled with defaults. -/
theorem fence_example_final_answer :
    getField (parse "```json\n\x7b\"final_answer\":\"42\"\x7d\n```".toList)
        fieldFinal = some (Json.str "42".toList) ∧
    getField (parse "```json\n\x7b\"final_answer\":\"42\"\x7d\n```".toList)
        fieldStep = none ∧
    getField (parse "```json\n\x7b\"final_answer\":\"42\"\x7d\n```".toList)
        fieldSummary = none ∧
    getField (parse "```json\n\x7b\"final_answer\":\"42\"\x7d\n```".toList)
        fieldPages = none :=
  ⟨rfl, rfl, rfl, rfl⟩

/-- C7 counterexample: on the example reply the parse result is exactly
`{"final_answer": "42"}` — the missing fields are not defaulted. -/
theorem fence_example_counterexample :
    parse "```json\n\x7b\"final_answer\":\"42\"\x7d\n```".toList =
      Json.obj [(fieldFinal, Json.str "42".toList)] ∧
    hasAllFields
      (parse "```json\n\x7b\"final_answer\":\"42\"\x7d\n```".toList) = false :=
  ⟨rfl, rfl⟩

/-! C9 parser-inversion ladder -/

theorem parseStringBody_plain (s : List Char) (hs : plainStr s = true) :
    ∀ (f : ℕ) (rest : List Char), s.length + 1 ≤ f →
      parseStringBody f (s ++ '"' :: rest) = some (s, rest) := by
  induction s with
  | nil =>
    intro f rest hf
    match f, hf with
    | g + 1, _ =>
      rw [List.nil_append, parseStringBody.eq_def]
      dsimp only
      rw [if_pos rfl]
  | cons c cs ih =>
    rw [plainStr, List.all_cons, Bool.and_eq_true] at hs
    rcases hs with ⟨hc, hcs⟩
    rw [plainAscii, Bool.and_eq_true, Bool.and_eq_true, Bool.and_eq_true] at hc
    have h32 : 32 ≤ c.toNat := by simpa using hc.1.1.1
    have hq : ¬ c = '"' := by simpa using hc.1.2
    have hb : ¬ c = '\\' := by simpa using hc.2
    intro f rest hf
    match f, hf with
    | g + 1, hf =>
      rw [List.cons_append, parseStringBody.eq_def]
      dsimp only
      rw [if_neg hq, if_neg hb, if_neg (by omega : ¬ c.toNat < 32),
        ih hcs g rest (by simpa using Nat.lt_succ_iff.1 hf)]
      rfl

theorem digitChar_spec : ∀ n : Fin 10,
    isDigitCh (digitChar n.val) = true ∧ digitVal (digitChar n.val) = n.val ∧
    (n.val ≠ 0 → digitChar n.val ≠ '0') ∧ digitChar n.val ≠ '-' ∧
    digitChar n.val ≠ '.' := by decide

theorem natDigitsAux_inv (n : ℕ) : ∀ f1 f2 : ℕ, n < f1 → n < f2 →
    natDigitsAux f1 n = natDigitsAux f2 n := by
  induction n using Nat.strong_induction_on with
  | _ n ih =>
    intro f1 f2 h1 h2
    match f1, f2 with
    | g1 + 1, g2 + 1 =>
      rw [natDigitsAux, natDigitsAux]
      by_cases hn : n < 10
      · rw [if_pos hn, if_pos hn]
      · rw [if_neg hn, if_neg hn]
        have hdiv : n / 10 < n := Nat.div_lt_self (by omega) (by omega)
        rw [ih (n / 10) hdiv g1 g2 (by omega) (by omega)]

theorem natDigits_digits (n : ℕ) : ∀ c ∈ natDigits n, isDigitCh c = true := by
  have aux : ∀ f n, n < f → ∀ c ∈ natDigitsAux f n, isDigitCh c = true := by
    intro f
    induction f with
    | zero => intro n h; omega
    | succ g ih =>
      intro n h c hc
      rw [natDigitsAux] at hc
      by_cases hn : n < 10
      · rw [if_pos hn] at hc
        rcases List.mem_singleton.1 hc with rfl
        exact (digitChar_spec ⟨n, hn⟩).1
      · rw [if_neg hn] at hc
        rcases List.mem_append.1 hc with hc' | hc'
        · have hdiv : n / 10 < n := Nat.div_lt_self (by omega) (by omega)
          exact ih (n / 10) (by omega) c hc'
        · rcases List.mem_singleton.1 hc' with rfl
          exact (digitChar_spec ⟨n % 10, Nat.mod_lt n (by omega)⟩).1
  exact aux (n + 1) n (Nat.lt_succ_self n)

theorem digitsVal_foldl (l : List Char) : ∀ a : ℕ,
    l.foldl (fun x c => 10 * x + digitVal c) a = a * 10 ^ l.length + digitsVal l := by
  induction l with
  | nil => intro a; simp [digitsVal]
  | cons c t ih =>
    intro a
    rw [List.foldl_cons, ih]
    have h2 : digitsVal (c :: t) = digitVal c * 10 ^ t.length + digitsVal t := by
      rw [digitsVal, List.foldl_cons]
      rw [show List.foldl (fun a c => 10 * a + digitVal c) (10 * 0 + digitVal c) t =
        (10 * 0 + digitVal c) * 10 ^ t.length + digitsVal t from ih _]
      ring
    rw [h2, List.length_cons]
    ring

theorem digitsVal_append_singleton (l : List Char) (d : Char) :
    digitsVal (l ++ [d]) = 10 * digitsVal l + digitVal d := by
  rw [digitsVal, List.foldl_append]
  rw [show l.foldl (fun x c => 10 * x + digitVal c) 0 = digitsVal l from rfl]
  rfl

theorem digitsVal_natDigits (n : ℕ) : digitsVal (natDigits n) = n := by
  induction n using Nat.strong_induction_on with
  | _ n ih =>
    rw [natDigits, natDigitsAux]
    by_cases hn : n < 10
    · rw [if_pos hn]
      have := (digitChar_spec ⟨n, hn⟩).2.1
      simp [digitsVal, this]
    · rw [if_neg hn]
      have hdiv : n / 10 < n := Nat.div_lt_self (by omega) (by omega)
      rw [natDigitsAux_inv (n / 10) n (n / 10 + 1) (by omega) (by omega)]
      rw [show natDigitsAux (n / 10 + 1) (n / 10) = natDigits (n / 10) from rfl]
      rw [digitsVal_append_singleton, ih (n / 10) hdiv]
      have h3 : digitVal (digitChar (n % 10)) = n % 10 :=
        (digitChar_spec ⟨n % 10, Nat.mod_lt n (by omega)⟩).2.1
      rw [h3]
      omega

theorem natDigits_ne_nil (n : ℕ) : natDigits n ≠ [] := by
  rw [natDigits, natDigitsAux]
  by_cases hn : n < 10
  · simp [hn]
  · simp [hn]

theorem natDigits_head_ne_zero (n : ℕ) :
    n ≠ 0 → ∀ c t, natDigits n = c :: t → ¬ c = '0' := by
  induction n using Nat.strong_induction_on with
  | _ n ih =>
    intro hn c t hct
    rw [natDigits, natDigitsAux] at hct
    by_cases h10 : n < 10
    · rw [if_pos h10] at hct
      have hc : c = digitChar n := by
        injection hct with h1 h2
        exact h1.symm
      rw [hc]
      exact (digitChar_spec ⟨n, h10⟩).2.2.1 hn
    · rw [if_neg h10] at hct
      have hdiv : n / 10 < n := Nat.div_lt_self (by omega) (by omega)
      rw [natDigitsAux_inv (n / 10) n (n / 10 + 1) (by omega) (by omega)] at hct
      rw [show natDigitsAux (n / 10 + 1) (n / 10) = natDigits (n / 10) from rfl] at hct
      cases hd : natDigits (n / 10) with
      | nil => exact absurd hd (natDigits_ne_nil (n / 10))
      | cons c2 t2 =>
        rw [hd, List.cons_append] at hct
        have hc : c = c2 := by
          injection hct with h1 h2
          exact h1.symm
        rw [hc]
        exact ih (n / 10) hdiv (by omega) c2 t2 hd

theorem takeWhile_all_append (p : Char → Bool) (l r : List Char)
    (hl : ∀ c ∈ l, p c = true) :
    (l ++ r).takeWhile p = l ++ r.takeWhile p := by
  induction l with
  | nil => simp
  | cons c t ih =>
    rw [List.cons_append, List.takeWhile_cons, hl c (List.mem_cons_self c t),
      ih (fun c hc => hl c (List.mem_cons_of_mem _ hc))]
    rfl

theorem dropWhile_all_append (p : Char → Bool) (l r : List Char)
    (hl : ∀ c ∈ l, p c = true) :
    (l ++ r).dropWhile p = r.dropWhile p := by
  induction l with
  | nil => simp
  | cons c t ih =>
    rw [List.cons_append, List.dropWhile_cons, hl c (List.mem_cons_self c t)]
    simp only [if_true]
    exact ih (fun c hc => hl c (List.mem_cons_of_mem _ hc))

theorem takeFrac_stop (rest : List Char)
    (hr : ∀ c, rest.head? = some c → ¬ c = '.') :
    takeFrac rest = ([], rest) := by
  cases rest with
  | nil => rfl
  | cons c t =>
    rw [takeFrac.eq_def]
    have hc : ¬ c = '.' := hr c rfl
    split
    · rename_i heq
      injection heq with h1 h2
      exact absurd h1 hc
    · rfl

theorem takeExp_stop (rest : List Char)
    (hr : ∀ c, rest.head? = some c → ¬ c = 'e' ∧ ¬ c = 'E') :
    takeExp rest = (false, [], rest) := by
  cases rest with
  | nil => rfl
  | cons c t =>
    rw [takeExp.eq_def]
    rcases hr c rfl with ⟨h1, h2⟩
    simp [h1, h2]

theorem takeWhile_stop (p : Char → Bool) (r : List Char)
    (hr : ∀ c, r.head? = some c → p c = false) :
    r.takeWhile p = [] ∧ r.dropWhile p = r := by
  cases r with
  | nil => exact ⟨rfl, rfl⟩
  | cons c t =>
    constructor
    · rw [List.takeWhile_cons, hr c rfl]
      rfl
    · rw [List.dropWhile_cons, hr c rfl]
      rfl

theorem numValue_nat (neg : Bool) (v : ℕ) :
    numValue neg v [] false [] = if neg then -(v : ℚ) else (v : ℚ) := by
  simp [numValue, digitsVal]

theorem parseUnsigned_natDigits (neg : Bool) (n : ℕ) (rest : List Char)
    (hr : ∀ c, rest.head? = some c →
      isDigitCh c = false ∧ ¬ c = '.' ∧ ¬ c = 'e' ∧ ¬ c = 'E') :
    parseUnsigned neg (natDigits n ++ rest) =
      some (Json.num (if neg then -(n : ℚ) else (n : ℚ)), rest) := by
  have hstop : rest.takeWhile isDigitCh = [] ∧ rest.dropWhile isDigitCh = rest :=
    takeWhile_stop _ _ (fun c hc => (hr c hc).1)
  have hfrac : takeFrac rest = ([], rest) :=
    takeFrac_stop rest (fun c hc => (hr c hc).2.1)
  have hexp : takeExp rest = (false, [], rest) :=
    takeExp_stop rest (fun c hc => ⟨(hr c hc).2.2.1, (hr c hc).2.2.2⟩)
  by_cases hn : n = 0
  · subst hn
    rw [show natDigits 0 = ['0'] from rfl, List.cons_append, List.nil_append,
      parseUnsigned.eq_def]
    dsimp only
    rw [if_pos rfl]
    simp only [hfrac, hexp, numValue_nat]
  · obtain ⟨c0, t0, hct⟩ : ∃ c0 t0, natDigits n = c0 :: t0 := by
      cases h : natDigits n with
      | nil => exact absurd h (natDigits_ne_nil n)
      | cons a b => exact ⟨a, b, rfl⟩
    have hc0digit : isDigitCh c0 = true :=
      natDigits_digits n c0 (by rw [hct]; exact List.mem_cons_self _ _)
    have hc0z : ¬ c0 = '0' := natDigits_head_ne_zero n hn c0 t0 hct
    have ht0digits : ∀ c ∈ t0, isDigitCh c = true := fun c hc =>
      natDigits_digits n c (by rw [hct]; exact List.mem_cons_of_mem _ hc)
    have hdv : digitsVal (c0 :: t0) = n := by
      rw [← hct]
      exact digitsVal_natDigits n
    rw [hct, List.cons_append, parseUnsigned.eq_def]
    dsimp only
    rw [if_neg hc0z, if_pos hc0digit,
      takeWhile_all_append isDigitCh t0 rest ht0digits,
      dropWhile_all_append isDigitCh t0 rest ht0digits]
    simp only [hstop.1, hstop.2, List.append_nil, hfrac, hexp, numValue_nat, hdv]

theorem parseNumber_intRender (i : ℤ) (rest : List Char)
    (hr : ∀ c, rest.head? = some c →
      isDigitCh c = false ∧ ¬ c = '.' ∧ ¬ c = 'e' ∧ ¬ c = 'E') :
    parseNumber (intRender i ++ rest) = some (Json.num (i : ℚ), rest) := by
  rw [intRender]
  by_cases hi : i < 0
  · rw [if_pos hi, List.cons_append]
    have hstep : parseNumber ('-' :: (natDigits i.natAbs ++ rest)) =
        parseUnsigned true (natDigits i.natAbs ++ rest) := rfl
    rw [hstep, parseUnsigned_natDigits true i.natAbs rest hr]
    have hcast : (if true = true then -((i.natAbs : ℚ)) else (i.natAbs : ℚ)) = (i : ℚ) := by
      rw [if_pos rfl, Int.cast_natAbs, abs_of_neg hi]
      push_cast
      ring
    rw [hcast]
  · rw [if_neg hi, parseNumber.eq_def]
    split
    · rename_i t heq
      obtain ⟨c0, t0, hct⟩ : ∃ c0 t0, natDigits i.natAbs = c0 :: t0 := by
        cases h : natDigits i.natAbs with
        | nil => exact absurd h (natDigits_ne_nil _)
        | cons a b => exact ⟨a, b, rfl⟩
      have hc0digit : isDigitCh c0 = true :=
        natDigits_digits _ c0 (by rw [hct]; exact List.mem_cons_self _ _)
      rw [hct, List.cons_append] at heq
      injection heq with h1 h2
      rw [h1] at hc0digit
      exact absurd hc0digit (by decide)
    · rw [parseUnsigned_natDigits false _ rest hr]
      have hcast : (if false = true then -((i.natAbs : ℚ)) else (i.natAbs : ℚ)) = (i : ℚ) := by
        rw [if_neg (by simp), Int.cast_natAbs, abs_of_nonneg (not_lt.1 hi)]
      rw [hcast]

theorem intRender_head (i : ℤ) :
    ∃ c0 t0, intRender i = c0 :: t0 ∧ jsonWs c0 = false ∧ ¬ c0 = ']' ∧
      ¬ c0 = braceL ∧ ¬ c0 = '[' ∧ ¬ c0 = '"' ∧ ¬ c0 = 't' ∧ ¬ c0 = 'f' ∧
      ¬ c0 = 'n' ∧ ¬ c0 = 'N' ∧ ¬ c0 = 'I' ∧ (c0 = '-' ∨ isDigitCh c0 = true) := by
  rw [intRender]
  by_cases hi : i < 0
  · exact ⟨'-', natDigits i.natAbs, by rw [if_pos hi], by decide, by decide, by decide,
      by decide, by decide, by decide, by decide, by decide, by decide, by decide,
      Or.inl rfl⟩
  · rw [if_neg hi]
    obtain ⟨c0, t0, hct⟩ : ∃ c0 t0, natDigits i.natAbs = c0 :: t0 := by
      cases h : natDigits i.natAbs with
      | nil => exact absurd h (natDigits_ne_nil _)
      | cons a b => exact ⟨a, b, rfl⟩
    have hd : isDigitCh c0 = true :=
      natDigits_digits _ c0 (by rw [hct]; exact List.mem_cons_self _ _)
    refine ⟨c0, t0, hct, ?_, ?_, ?_, ?_, ?_, ?_, ?_, ?_, ?_, ?_, Or.inr hd⟩ <;>
      first
        | (intro heq; rw [heq] at hd; exact absurd hd (by decide))
        | (rw [jsonWs]; revert hd; rw [isDigitCh]; intro hd
           simp only [Bool.or_eq_false_iff, decide_eq_false_iff_not]
           rw [Bool.and_eq_true, decide_eq_true_eq, decide_eq_true_eq] at hd
           refine ⟨⟨⟨fun h => ?_, fun h => ?_⟩, fun h => ?_⟩, fun h => ?_⟩ <;>
             (rw [h] at hd; revert hd; decide)
      )

theorem isPrefixOf_cons_ne (a b : Char) (l t : List Char) (h : ¬ a = b) :
    (a :: l).isPrefixOf (b :: t) = false := by
  rw [show (a :: l).isPrefixOf (b :: t) = (a == b && l.isPrefixOf t) from rfl]
  simp [h]

theorem parseValue_num (f : ℕ) (hf : 1 ≤ f) (i : ℤ) (rest : List Char)
    (hr : ∀ c, rest.head? = some c →
      isDigitCh c = false ∧ ¬ c = '.' ∧ ¬ c = 'e' ∧ ¬ c = 'E') :
    parseValue f (intRender i ++ rest) = some (Json.num (i : ℚ), rest) := by
  match f, hf with
  | g + 1, _ =>
    rcases intRender_head i with
      ⟨c0, t0, hct, hws, hrb, h1, h2, h3, h4, h5, h6, h7, h8, hd⟩
    rw [hct, List.cons_append, parseValue.eq_def]
    dsimp only
    rw [if_neg h1, if_neg h2, if_neg h3, if_neg h4, if_neg h5, if_neg h6, if_neg h7,
      if_neg h8]
    rcases hd with rfl | hdig
    · rw [if_pos rfl]
      have hpre : ("Infinity".toList).isPrefixOf (t0 ++ rest) = false := by
        have ht0 : intRender i = '-' :: t0 := hct
        rw [intRender] at ht0
        by_cases hi : i < 0
        · rw [if_pos hi] at ht0
          have ht0' : t0 = natDigits i.natAbs := by
            injection ht0 with ha hb
            exact hb.symm
          obtain ⟨d0, d1, hdd⟩ : ∃ d0 d1, natDigits i.natAbs = d0 :: d1 := by
            cases h : natDigits i.natAbs with
            | nil => exact absurd h (natDigits_ne_nil _)
            | cons a b => exact ⟨a, b, rfl⟩
          have hd0 : isDigitCh d0 = true :=
            natDigits_digits _ d0 (by rw [hdd]; exact List.mem_cons_self _ _)
          rw [ht0', hdd, List.cons_append]
          rw [show "Infinity".toList = 'I' :: "nfinity".toList from rfl]
          refine isPrefixOf_cons_ne _ _ _ _ ?_
          intro heq
          rw [← heq] at hd0
          exact absurd hd0 (by decide)
        · rw [if_neg hi] at ht0
          obtain ⟨d0, d1, hdd⟩ : ∃ d0 d1, natDigits i.natAbs = d0 :: d1 := by
            cases h : natDigits i.natAbs with
            | nil => exact absurd h (natDigits_ne_nil _)
            | cons a b => exact ⟨a, b, rfl⟩
          have hd0 : isDigitCh d0 = true :=
            natDigits_digits _ d0 (by rw [hdd]; exact List.mem_cons_self _ _)
          rw [hdd] at ht0
          injection ht0 with ha hb
          rw [ha] at hd0
          exact absurd hd0 (by decide)
      rw [hpre]
      simp only [Bool.false_eq_true, if_false]
      rw [← List.cons_append, ← hct, parseNumber_intRender i rest hr]
    · have hnm : ¬ c0 = '-' := by
        intro h
        rw [h] at hdig
        exact absurd hdig (by decide)
      rw [if_neg hnm, if_pos hdig, ← List.cons_append, ← hct,
        parseNumber_intRender i rest hr]

theorem parseValue_str (f : ℕ) (hf : 1 ≤ f) (s rest : List Char)
    (hs : plainStr s = true) :
    parseValue f ('"' :: (s ++ '"' :: rest)) = some (Json.str s, rest) := by
  match f, hf with
  | g + 1, _ =>
    rw [parseValue.eq_def]
    dsimp only
    rw [if_neg (by decide), if_neg (by decide), if_pos rfl,
      parseStringBody_plain s hs ((s ++ '"' :: rest).length + 1) rest
        (by simp only [List.length_append, List.length_cons]; omega)]
    rfl

theorem parseValue_true (f : ℕ) (hf : 1 ≤ f) (rest : List Char) :
    parseValue f ('t' :: 'r' :: 'u' :: 'e' :: rest) = some (Json.bool true, rest) := by
  match f, hf with
  | g + 1, _ =>
    rw [parseValue.eq_def]
    dsimp only
    rw [if_neg (by decide), if_neg (by decide), if_neg (by decide), if_pos rfl]
    rw [if_pos (by decide)]

theorem parseValue_false (f : ℕ) (hf : 1 ≤ f) (rest : List Char) :
    parseValue f ('f' :: 'a' :: 'l' :: 's' :: 'e' :: rest) =
      some (Json.bool false, rest) := by
  match f, hf with
  | g + 1, _ =>
    rw [parseValue.eq_def]
    dsimp only
    rw [if_neg (by decide), if_neg (by decide), if_neg (by decide),
      if_neg (by decide), if_pos rfl]
    rw [if_pos (by decide)]

theorem dropWhile_ws_cons (c : Char) (t : List Char) (hc : jsonWs c = false) :
    (c :: t).dropWhile jsonWs = c :: t := by
  rw [List.dropWhile_cons, hc]
  rfl

theorem sepComma_cons₂ (a b : List Char) (t : List (List Char)) :
    sepComma (a :: b :: t) = a ++ ',' :: sepComma (b :: t) := by
  rw [sepComma.eq_def]

theorem sepComma_int_head (y : ℤ) (ys : List ℤ) :
    ∃ c0 t0, sepComma (((y :: ys).map intRender)) = c0 :: t0 ∧
      jsonWs c0 = false ∧ ¬ c0 = ']' ∧ ¬ c0 = braceR := by
  rcases intRender_head y with ⟨c0, t0, hct, hws, hrb, _, _, _, _, _, _, _, _, hd⟩
  have hbr : ¬ c0 = braceR := by
    rcases hd with rfl | hd
    · decide
    · intro h
      rw [h] at hd
      exact absurd hd (by decide)
  cases ys with
  | nil =>
    exact ⟨c0, t0, by rw [List.map_cons, List.map_nil,
      show sepComma [intRender y] = intRender y from rfl, hct], hws, hrb, hbr⟩
  | cons z zs =>
    refine ⟨c0, t0 ++ ',' :: sepComma ((z :: zs).map intRender), ?_, hws, hrb, hbr⟩
    rw [List.map_cons, List.map_cons, sepComma_cons₂, hct, List.cons_append,
      ← List.map_cons]

theorem parseElems_ints (xs : List ℤ) : ∀ (x : ℤ) (acc : List Json)
    (rest : List Char) (f : ℕ), 2 * xs.length + 2 ≤ f →
    parseElems f (sepComma (((x :: xs).map intRender)) ++ ']' :: rest) acc =
      some (Json.arr (acc ++ (x :: xs).map fun j : ℤ => Json.num (j : ℚ)), rest) := by
  induction xs with
  | nil =>
    intro x acc rest f hf
    match f, hf with
    | g + 1, hf =>
      rw [List.map_cons, List.map_nil,
        show sepComma [intRender x] = intRender x from rfl,
        parseElems.eq_def]
      dsimp only
      rw [parseValue_num g (by omega) x (']' :: rest) ?stop]
      case stop =>
        intro c hc
        injection hc with h
        rw [← h]
        exact ⟨by decide, by decide, by decide, by decide⟩
      dsimp only
      rw [dropWhile_ws_cons ']' rest (by decide)]
      rfl
  | cons y ys ih =>
    intro x acc rest f hf
    match f, hf with
    | g + 1, hf =>
      rw [List.map_cons, List.map_cons, sepComma_cons₂, ← List.map_cons]
      rw [List.append_assoc, List.cons_append, parseElems.eq_def]
      dsimp only
      rw [parseValue_num g (by simp at hf ⊢; omega) x
        (',' :: (sepComma ((y :: ys).map intRender) ++ ']' :: rest)) ?stop2]
      case stop2 =>
        intro c hc
        injection hc with h
        rw [← h]
        exact ⟨by decide, by decide, by decide, by decide⟩
      dsimp only
      rw [dropWhile_ws_cons ',' _ (by decide)]
      rcases sepComma_int_head y ys with ⟨c0, t0, hct, hws, _, _⟩
      rw [hct, List.cons_append]
      show parseElems g (List.dropWhile jsonWs (c0 :: (t0 ++ ']' :: rest)))
        (acc ++ [Json.num (x : ℚ)]) = _
      rw [dropWhile_ws_cons c0 _ hws, ← List.cons_append, ← hct,
        ih y (acc ++ [Json.num (x : ℚ)]) rest g (by simp at hf ⊢; omega)]
      rw [List.append_assoc]
      rfl

theorem parseValue_intList (f : ℕ) (xs : List ℤ) (rest : List Char)
    (hf : 2 * xs.length + 4 ≤ f) :
    parseValue f ('[' :: (sepComma (xs.map intRender) ++ ']' :: rest)) =
      some (Json.arr (xs.map fun j : ℤ => Json.num (j : ℚ)), rest) := by
  match f, hf with
  | g + 1, hf =>
    rw [parseValue.eq_def]
    dsimp only
    rw [if_neg (by decide), if_pos rfl]
    cases xs with
    | nil =>
      rw [List.map_nil, show sepComma ([] : List (List Char)) = [] from rfl,
        List.nil_append, dropWhile_ws_cons ']' rest (by decide)]
      match g, hf with
      | g2 + 1, _ =>
        rw [parseArrRest.eq_def]
        dsimp only
        rfl
    | cons y ys =>
      rcases sepComma_int_head y ys with ⟨c0, t0, hct, hws, hrb, _⟩
      rw [hct, List.cons_append, dropWhile_ws_cons c0 _ hws]
      match g, hf with
      | g2 + 1, hf =>
        rw [parseArrRest.eq_def]
        dsimp only
        split
        · rename_i r heq
          injection heq with h1 h2
          exact absurd h1 hrb
        · rw [← List.cons_append, ← hct,
            parseElems_ints ys y [] rest g2 (by simp at hf ⊢; omega)]
          rw [List.nil_append]

theorem renderStr_head (s : List Char) :
    ∃ t0, renderStr s = '"' :: t0 ∧ jsonWs '"' = false ∧ ¬ ('"' : Char) = ']' ∧
      ¬ ('"' : Char) = braceR :=
  ⟨s ++ ['"'], rfl, by decide, by decide, by decide⟩

theorem sepComma_str_head (y : List Char) (ys : List (List Char)) :
    ∃ t0, sepComma (((y :: ys).map renderStr)) = '"' :: t0 := by
  cases ys with
  | nil => exact ⟨y ++ ['"'], by
      rw [List.map_cons, List.map_nil, show sepComma [renderStr y] = renderStr y from rfl]
      rfl⟩
  | cons z zs =>
    refine ⟨(y ++ ['"']) ++ ',' :: sepComma ((z :: zs).map renderStr), ?_⟩
    rw [List.map_cons, List.map_cons, sepComma_cons₂, ← List.map_cons]
    rfl

theorem parseElems_strs (xs : List (List Char)) : ∀ (x : List Char) (acc : List Json)
    (rest : List Char) (f : ℕ), 2 * xs.length + 2 ≤ f →
    plainStr x = true → xs.all plainStr = true →
    parseElems f (sepComma (((x :: xs).map renderStr)) ++ ']' :: rest) acc =
      some (Json.arr (acc ++ (x :: xs).map Json.str), rest) := by
  induction xs with
  | nil =>
    intro x acc rest f hf hx hxs
    match f, hf with
    | g + 1, hf =>
      rw [List.map_cons, List.map_nil,
        show sepComma [renderStr x] = renderStr x from rfl]
      simp only [renderStr, List.cons_append, List.append_assoc, List.singleton_append,
        List.nil_append]
      rw [parseElems.eq_def]
      dsimp only
      rw [parseValue_str g (by omega) x (']' :: rest) hx]
      dsimp only
      rw [dropWhile_ws_cons ']' rest (by decide)]
      rfl
  | cons y ys ih =>
    intro x acc rest f hf hx hxs
    rw [List.all_cons, Bool.and_eq_true] at hxs
    match f, hf with
    | g + 1, hf =>
      rw [List.map_cons, List.map_cons, sepComma_cons₂, ← List.map_cons]
      simp only [renderStr, List.cons_append, List.append_assoc, List.singleton_append,
        List.nil_append]
      rw [parseElems.eq_def]
      dsimp only
      rw [parseValue_str g (by simp at hf ⊢; omega) x _ hx]
      dsimp only
      rw [dropWhile_ws_cons ',' _ (by decide)]
      rcases sepComma_str_head y ys with ⟨t0, hct⟩
      rw [hct, List.cons_append]
      show parseElems g (List.dropWhile jsonWs ('"' :: (t0 ++ ']' :: rest)))
        (acc ++ [Json.str x]) = _
      rw [dropWhile_ws_cons '"' _ (by decide), ← List.cons_append, ← hct,
        ih y (acc ++ [Json.str x]) rest g (by simp at hf ⊢; omega) hxs.1 hxs.2]
      rw [List.append_assoc]
      rfl

theorem parseValue_strList (f : ℕ) (xs : List (List Char)) (rest : List Char)
    (hf : 2 * xs.length + 4 ≤ f) (hxs : xs.all plainStr = true) :
    parseValue f ('[' :: (sepComma (xs.map renderStr) ++ ']' :: rest)) =
      some (Json.arr (xs.map Json.str), rest) := by
  match f, hf with
  | g + 1, hf =>
    rw [parseValue.eq_def]
    dsimp only
    rw [if_neg (by decide), if_pos rfl]
    cases xs with
    | nil =>
      rw [List.map_nil, show sepComma ([] : List (List Char)) = [] from rfl,
        List.nil_append, dropWhile_ws_cons ']' rest (by decide)]
      match g, hf with
      | g2 + 1, _ =>
        rw [parseArrRest.eq_def]
        dsimp only
        rfl
    | cons y ys =>
      rw [List.all_cons, Bool.and_eq_true] at hxs
      rcases sepComma_str_head y ys with ⟨t0, hct⟩
      rw [hct, List.cons_append, dropWhile_ws_cons '"' _ (by decide)]
      match g, hf with
      | g2 + 1, hf =>
        rw [parseArrRest.eq_def]
        dsimp only
        split
        · rename_i r heq
          injection heq with h1 h2
          exact absurd h1 (by decide)
        · rw [← List.cons_append, ← hct,
            parseElems_strs ys y [] rest g2 (by simp at hf ⊢; omega) hxs.1 hxs.2]
          rw [List.nil_append]

/-! C9 round-trip: member chain, serialization, and the claim -/

theorem parseMembers_stepA (f : ℕ) (key : List Char) (hkey : plainStr key = true)
    (valrest : List Char) (hvr : valrest.dropWhile jsonWs = valrest)
    (v : Json) (t2 : List Char) (ht2 : t2.dropWhile jsonWs = t2)
    (acc : List (List Char × Json))
    (hv : parseValue f valrest = some (v, ',' :: t2)) :
    parseMembers (f + 1) ('"' :: (key ++ '"' :: ':' :: valrest)) acc =
      parseMembers f t2 (objInsert acc key v) := by
  rw [parseMembers.eq_def]
  split
  case h_1 => rename_i heq; exact absurd heq (by omega)
  case h_2 =>
    rename_i fuel heq
    injection heq with hfe
    subst hfe
    split
    case h_2 => rename_i hne; exact absurd rfl (hne (key ++ '"' :: ':' :: valrest))
    case h_1 =>
      rename_i r heq2
      injection heq2 with h1 h2
      subst h2
      rw [parseStringBody_plain key hkey ((key ++ '"' :: ':' :: valrest).length + 1)
        (':' :: valrest) (by simp only [List.length_append, List.length_cons]; omega)]
      dsimp only
      rw [dropWhile_ws_cons ':' valrest (by decide)]
      split
      case h_2 => rename_i hne; exact absurd rfl (hne valrest)
      case h_1 =>
        rename_i r3 heq3
        injection heq3 with h3 h4
        subst h4
        rw [hvr, hv]
        dsimp only
        rw [dropWhile_ws_cons ',' t2 (by decide)]
        split
        case h_1 =>
          rename_i r5 heq4
          injection heq4 with h5 h6
          subst h6
          rw [ht2]
        case h_2 =>
          rename_i d r5 hne heq4
          injection heq4 with h5 h6
          exact absurd h5.symm hne
        case h_3 => rename_i heq4; exact absurd heq4 (by simp)

theorem parseMembers_stepB (f : ℕ) (key : List Char) (hkey : plainStr key = true)
    (valrest : List Char) (hvr : valrest.dropWhile jsonWs = valrest)
    (v : Json) (t2 : List Char)
    (acc : List (List Char × Json))
    (hv : parseValue f valrest = some (v, braceR :: t2)) :
    parseMembers (f + 1) ('"' :: (key ++ '"' :: ':' :: valrest)) acc =
      some (Json.obj (objInsert acc key v), t2) := by
  rw [parseMembers.eq_def]
  split
  case h_1 => rename_i heq; exact absurd heq (by omega)
  case h_2 =>
    rename_i fuel heq
    injection heq with hfe
    subst hfe
    split
    case h_2 => rename_i hne; exact absurd rfl (hne (key ++ '"' :: ':' :: valrest))
    case h_1 =>
      rename_i r heq2
      injection heq2 with h1 h2
      subst h2
      rw [parseStringBody_plain key hkey ((key ++ '"' :: ':' :: valrest).length + 1)
        (':' :: valrest) (by simp only [List.length_append, List.length_cons]; omega)]
      dsimp only
      rw [dropWhile_ws_cons ':' valrest (by decide)]
      split
      case h_2 => rename_i hne; exact absurd rfl (hne valrest)
      case h_1 =>
        rename_i r3 heq3
        injection heq3 with h3 h4
        subst h4
        rw [hvr, hv]
        dsimp only
        rw [dropWhile_ws_cons braceR t2 (by decide)]
        split
        case h_1 =>
          rename_i r5 heq4
          injection heq4 with h5 h6
          exact absurd h5 (by decide)
        case h_2 =>
          rename_i d r5 h_a h_b
          first
          | (injection h_b with h5 h6; subst h6;
             rw [show d = braceR from h5.symm, if_pos rfl])
          | (injection h_a with h5 h6; subst h6;
             rw [show d = braceR from h5.symm, if_pos rfl])
        case h_3 => rename_i heq4; exact absurd heq4 (by simp)

theorem parseValue_renderFinal (f : ℕ) (fa : FinalAnswer) (rest : List Char)
    (hf : 2 * (match fa with | .flist vs => vs.length | _ => 0) + 4 ≤ f)
    (hfa : plainFinal fa = true)
    (hr : ∀ c, rest.head? = some c →
      isDigitCh c = false ∧ ¬ c = '.' ∧ ¬ c = 'e' ∧ ¬ c = 'E') :
    parseValue f (renderFinal fa ++ rest) = some (finalToJson fa, rest) := by
  match fa with
  | .fstr v =>
    rw [renderFinal, finalToJson]
    simp only [renderStr, List.cons_append, List.append_assoc, List.singleton_append,
        List.nil_append]
    have hf4 : 4 ≤ f := hf
    exact parseValue_str f (by omega) v rest (by simpa [plainFinal] using hfa)
  | .fint i =>
    rw [renderFinal, finalToJson]
    have hf4 : 4 ≤ f := hf
    exact parseValue_num f (by omega) i rest hr
  | .fbool true =>
    rw [renderFinal, finalToJson]
    have hf4 : 4 ≤ f := hf
    rw [show "true".toList ++ rest = 't' :: 'r' :: 'u' :: 'e' :: rest from rfl]
    exact parseValue_true f (by omega) rest
  | .fbool false =>
    rw [renderFinal, finalToJson]
    have hf4 : 4 ≤ f := hf
    rw [show "false".toList ++ rest = 'f' :: 'a' :: 'l' :: 's' :: 'e' :: rest from rfl]
    exact parseValue_false f (by omega) rest
  | .flist vs =>
    rw [renderFinal, finalToJson, renderStrList]
    have hf4 : 2 * vs.length + 4 ≤ f := hf
    simp only [List.cons_append, List.append_assoc, List.singleton_append,
        List.nil_append]
    exact parseValue_strList f vs rest (by omega) (by simpa [plainFinal] using hfa)

theorem renderFinal_dropWhile (fa : FinalAnswer) (r : List Char) :
    (renderFinal fa ++ r).dropWhile jsonWs = renderFinal fa ++ r := by
  match fa with
  | .fstr v =>
    rw [renderFinal, renderStr]
    simp only [List.cons_append, List.append_assoc]
    exact dropWhile_ws_cons _ _ (by decide)
  | .fint i =>
    rw [renderFinal]
    obtain ⟨c0, t0, hsh, hws, -⟩ := intRender_head i
    rw [hsh, List.cons_append]
    exact dropWhile_ws_cons _ _ hws
  | .fbool true =>
    rw [renderFinal, show "true".toList = 't' :: "rue".toList from rfl, List.cons_append]
    exact dropWhile_ws_cons _ _ (by decide)
  | .fbool false =>
    rw [renderFinal, show "false".toList = 'f' :: "alse".toList from rfl, List.cons_append]
    exact dropWhile_ws_cons _ _ (by decide)
  | .flist vs =>
    rw [renderFinal, renderStrList]
    simp only [List.cons_append, List.append_assoc]
    exact dropWhile_ws_cons _ _ (by decide)

theorem parseValue_serialize (x : StructuredAnswer) (g : ℕ)
    (h1 : plainStr x.step_by_step_analysis = true)
    (h2 : plainStr x.reasoning_summary = true)
    (h3 : plainFinal x.final_answer = true)
    (hg1 : 2 * x.relevant_pages.length + 4 ≤ g + 1)
    (hg2 : 2 * (match x.final_answer with | .flist vs => vs.length | _ => 0) + 4 ≤ g) :
    parseValue (g + 6) (serialize x) =
      some (Json.obj (objInsert (objInsert (objInsert (objInsert []
        fieldStep (Json.str x.step_by_step_analysis))
        fieldSummary (Json.str x.reasoning_summary))
        fieldPages (Json.arr (x.relevant_pages.map fun j : ℤ => Json.num (j : ℚ))))
        fieldFinal (finalToJson x.final_answer)), []) := by
  have hv4 : parseValue g (renderFinal x.final_answer ++ [braceR]) =
      some (finalToJson x.final_answer, braceR :: []) := by
    refine parseValue_renderFinal g x.final_answer [braceR] hg2 h3 ?_
    intro c hc
    simp only [List.head?] at hc
    injection hc with hc2
    subst hc2
    exact ⟨by decide, by decide, by decide, by decide⟩
  have hm4 : ∀ acc, parseMembers (g + 1)
      ('"' :: (fieldFinal ++ '"' :: ':' :: (renderFinal x.final_answer ++ [braceR]))) acc =
      some (Json.obj (objInsert acc fieldFinal (finalToJson x.final_answer)), []) :=
    fun acc => parseMembers_stepB g fieldFinal (by decide)
      (renderFinal x.final_answer ++ [braceR]) (renderFinal_dropWhile _ _)
      (finalToJson x.final_answer) [] acc hv4
  have hv3 : parseValue (g + 1)
      ('[' :: (sepComma (x.relevant_pages.map intRender) ++ ']' :: ',' ::
        ('"' :: (fieldFinal ++ '"' :: ':' :: (renderFinal x.final_answer ++ [braceR]))))) =
      some (Json.arr (x.relevant_pages.map fun j : ℤ => Json.num (j : ℚ)), ',' ::
        ('"' :: (fieldFinal ++ '"' :: ':' :: (renderFinal x.final_answer ++ [braceR])))) :=
    parseValue_intList (g + 1) x.relevant_pages _ hg1
  have hm3 : ∀ acc, parseMembers (g + 2)
      ('"' :: (fieldPages ++ '"' :: ':' ::
        ('[' :: (sepComma (x.relevant_pages.map intRender) ++ ']' :: ',' ::
          ('"' :: (fieldFinal ++ '"' :: ':' :: (renderFinal x.final_answer ++ [braceR]))))))) acc =
      some (Json.obj (objInsert (objInsert acc
        fieldPages (Json.arr (x.relevant_pages.map fun j : ℤ => Json.num (j : ℚ))))
        fieldFinal (finalToJson x.final_answer)), []) :=
    fun acc => (parseMembers_stepA (g + 1) fieldPages (by decide) _
      (dropWhile_ws_cons _ _ (by decide)) _ _
      (dropWhile_ws_cons _ _ (by decide)) acc hv3).trans (hm4 _)
  have hv2 : parseValue (g + 2)
      ('"' :: (x.reasoning_summary ++ '"' :: ',' ::
        ('"' :: (fieldPages ++ '"' :: ':' ::
          ('[' :: (sepComma (x.relevant_pages.map intRender) ++ ']' :: ',' ::
            ('"' :: (fieldFinal ++ '"' :: ':' :: (renderFinal x.final_answer ++ [braceR]))))))))) =
      some (Json.str x.reasoning_summary, ',' ::
        ('"' :: (fieldPages ++ '"' :: ':' ::
          ('[' :: (sepComma (x.relevant_pages.map intRender) ++ ']' :: ',' ::
            ('"' :: (fieldFinal ++ '"' :: ':' :: (renderFinal x.final_answer ++ [braceR])))))))) :=
    parseValue_str (g + 2) (by omega) x.reasoning_summary _ h2
  have hm2 : ∀ acc, parseMembers (g + 3)
      ('"' :: (fieldSummary ++ '"' :: ':' ::
        ('"' :: (x.reasoning_summary ++ '"' :: ',' ::
          ('"' :: (fieldPages ++ '"' :: ':' ::
            ('[' :: (sepComma (x.relevant_pages.map intRender) ++ ']' :: ',' ::
              ('"' :: (fieldFinal ++ '"' :: ':' ::
                (renderFinal x.final_answer ++ [braceR]))))))))))) acc =
      some (Json.obj (objInsert (objInsert (objInsert acc
        fieldSummary (Json.str x.reasoning_summary))
        fieldPages (Json.arr (x.relevant_pages.map fun j : ℤ => Json.num (j : ℚ))))
        fieldFinal (finalToJson x.final_answer)), []) :=
    fun acc => (parseMembers_stepA (g + 2) fieldSummary (by decide) _
      (dropWhile_ws_cons _ _ (by decide)) _ _
      (dropWhile_ws_cons _ _ (by decide)) acc hv2).trans (hm3 _)
  have hv1 : parseValue (g + 3)
      ('"' :: (x.step_by_step_analysis ++ '"' :: ',' ::
        ('"' :: (fieldSummary ++ '"' :: ':' ::
          ('"' :: (x.reasoning_summary ++ '"' :: ',' ::
            ('"' :: (fieldPages ++ '"' :: ':' ::
              ('[' :: (sepComma (x.relevant_pages.map intRender) ++ ']' :: ',' ::
                ('"' :: (fieldFinal ++ '"' :: ':' ::
                  (renderFinal x.final_answer ++ [braceR]))))))))))))) =
      some (Json.str x.step_by_step_analysis, ',' ::
        ('"' :: (fieldSummary ++ '"' :: ':' ::
          ('"' :: (x.reasoning_summary ++ '"' :: ',' ::
            ('"' :: (fieldPages ++ '"' :: ':' ::
              ('[' :: (sepComma (x.relevant_pages.map intRender) ++ ']' :: ',' ::
                ('"' :: (fieldFinal ++ '"' :: ':' ::
                  (renderFinal x.final_answer ++ [braceR])))))))))))) :=
    parseValue_str (g + 3) (by omega) x.step_by_step_analysis _ h1
  have hm1 : parseMembers (g + 4)
      ('"' :: (fieldStep ++ '"' :: ':' ::
        ('"' :: (x.step_by_step_analysis ++ '"' :: ',' ::
          ('"' :: (fieldSummary ++ '"' :: ':' ::
            ('"' :: (x.reasoning_summary ++ '"' :: ',' ::
              ('"' :: (fieldPages ++ '"' :: ':' ::
                ('[' :: (sepComma (x.relevant_pages.map intRender) ++ ']' :: ',' ::
                  ('"' :: (fieldFinal ++ '"' :: ':' ::
                    (renderFinal x.final_answer ++ [braceR]))))))))))))))) [] =
      some (Json.obj (objInsert (objInsert (objInsert (objInsert []
        fieldStep (Json.str x.step_by_step_analysis))
        fieldSummary (Json.str x.reasoning_summary))
        fieldPages (Json.arr (x.relevant_pages.map fun j : ℤ => Json.num (j : ℚ))))
        fieldFinal (finalToJson x.final_answer)), []) :=
    (parseMembers_stepA (g + 3) fieldStep (by decide) _
      (dropWhile_ws_cons _ _ (by decide)) _ _
      (dropWhile_ws_cons _ _ (by decide)) [] hv1).trans (hm2 _)
  rw [serialize]
  simp only [renderStr, renderIntList, List.cons_append, List.append_assoc,
    List.singleton_append, List.nil_append]
  rw [parseValue.eq_def]
  dsimp only
  rw [if_pos rfl]
  rw [dropWhile_ws_cons '"' _ (by decide)]
  rw [parseObjRest.eq_def]
  dsimp only
  rw [if_neg (by decide)]
  exact hm1

theorem objInsert_chain (a b c d : Json) :
    objInsert (objInsert (objInsert (objInsert [] fieldStep a) fieldSummary b)
      fieldPages c) fieldFinal d =
      [(fieldStep, a), (fieldSummary, b), (fieldPages, c), (fieldFinal, d)] := by
  simp only [objInsert]
  repeat rw [if_neg (by decide)]

theorem sepComma_length_ge (ls : List (List Char)) (h : ∀ l ∈ ls, 1 ≤ l.length) :
    ls.length ≤ (sepComma ls).length := by
  induction ls with
  | nil => simp [sepComma]
  | cons a t ih =>
    cases t with
    | nil => simpa [sepComma] using h a (by simp)
    | cons b t2 =>
      rw [sepComma_cons₂]
      have h2 := ih (fun l hl => h l (List.mem_cons_of_mem _ hl))
      have ha := h a (by simp)
      simp only [List.length_append, List.length_cons] at *
      omega

theorem intRender_length_ge (i : ℤ) : 1 ≤ (intRender i).length := by
  rw [intRender]
  have hne := natDigits_ne_nil i.natAbs
  by_cases hi : i < 0
  · rw [if_pos hi]; simp
  · rw [if_neg hi]
    cases hn : natDigits i.natAbs with
    | nil => exact absurd hn hne
    | cons c t => simp

theorem renderStr_length_ge (s : List Char) : 1 ≤ (renderStr s).length := by
  rw [renderStr]; simp

theorem serialize_length_ge (x : StructuredAnswer) :
    x.relevant_pages.length + 3 ≤ (serialize x).length ∧
    (match x.final_answer with | .flist vs => vs.length | _ => 0) + 3 ≤
      (serialize x).length := by
  have hpages : x.relevant_pages.length ≤
      (sepComma (x.relevant_pages.map intRender)).length := by
    have := sepComma_length_ge (x.relevant_pages.map intRender) ?_
    · simpa using this
    · intro l hl
      obtain ⟨i, _, rfl⟩ := List.mem_map.mp hl
      exact intRender_length_ge i
  have hfin : (match x.final_answer with | .flist vs => vs.length | _ => 0) ≤
      (renderFinal x.final_answer).length := by
    match x.final_answer with
    | .fstr v => simp
    | .fint i => simp
    | .fbool true => simp
    | .fbool false => simp
    | .flist vs =>
      rw [renderFinal, renderStrList]
      have := sepComma_length_ge (vs.map renderStr) ?_
      · simp only [List.length_cons, List.length_append, List.length_map] at *
        omega
      · intro l hl
        obtain ⟨s, _, rfl⟩ := List.mem_map.mp hl
        exact renderStr_length_ge s
  rw [serialize, renderIntList]
  simp only [List.length_append, List.length_cons, List.length_singleton]
  constructor <;> omega

theorem serialize_dropWhile (x : StructuredAnswer) :
    (serialize x).dropWhile jsonWs = serialize x := by
  rw [serialize]
  simp only [List.cons_append]
  exact dropWhile_ws_cons _ _ (by decide)

theorem jsonLoads_serialize (x : StructuredAnswer)
    (h1 : plainStr x.step_by_step_analysis = true)
    (h2 : plainStr x.reasoning_summary = true)
    (h3 : plainFinal x.final_answer = true) :
    jsonLoads (serialize x) = some (toJson x) := by
  obtain ⟨hp, hf⟩ := serialize_length_ge x
  obtain ⟨g, hgF⟩ : ∃ g, 2 * (serialize x).length + 4 = g + 6 :=
    ⟨2 * (serialize x).length - 2, by omega⟩
  rw [jsonLoads, serialize_dropWhile, hgF,
    parseValue_serialize x g h1 h2 h3 (by omega) (by omega)]
  simp only [List.dropWhile_nil, List.isEmpty_nil, if_true]
  rw [toJson, objInsert_chain]

theorem plainAscii_ne_nl (c : Char) (h : plainAscii c = true) : ¬ c = '\n' := by
  intro hc; subst hc; exact absurd h (by decide)

theorem natDigits_no_nl (n : ℕ) : ∀ c ∈ natDigits n, ¬ c = '\n' := by
  intro c hc he
  subst he
  exact absurd (natDigits_digits n _ hc) (by decide)

theorem intRender_no_nl (i : ℤ) : ∀ c ∈ intRender i, ¬ c = '\n' := by
  intro c hc
  rw [intRender] at hc
  by_cases hi : i < 0
  · rw [if_pos hi] at hc
    rcases List.mem_cons.mp hc with rfl | hc2
    · decide
    · exact natDigits_no_nl _ c hc2
  · rw [if_neg hi] at hc
    exact natDigits_no_nl _ c hc

theorem sepComma_no_nl (ls : List (List Char))
    (h : ∀ l ∈ ls, ∀ c ∈ l, ¬ c = '\n') : ∀ c ∈ sepComma ls, ¬ c = '\n' := by
  induction ls with
  | nil => intro c hc; simp [sepComma] at hc
  | cons a t ih =>
    cases t with
    | nil => intro c hc; exact h a (by simp) c (by simpa [sepComma] using hc)
    | cons b t2 =>
      intro c hc
      rw [sepComma_cons₂] at hc
      rcases List.mem_append.mp hc with hca | hcr
      · exact h a (by simp) c hca
      · rcases List.mem_cons.mp hcr with rfl | hc2
        · decide
        · exact ih (fun l hl => h l (List.mem_cons_of_mem _ hl)) c hc2

theorem renderStr_no_nl (s : List Char) (hs : plainStr s = true) :
    ∀ c ∈ renderStr s, ¬ c = '\n' := by
  intro c hc
  rw [renderStr] at hc
  simp only [List.cons_append, List.mem_cons, List.mem_append, List.mem_singleton,
    List.not_mem_nil, or_false] at hc
  rcases hc with rfl | hcs | rfl
  · decide
  · exact plainAscii_ne_nl c (List.all_eq_true.mp hs c hcs)
  · decide

theorem renderIntList_no_nl (xs : List ℤ) : ∀ c ∈ renderIntList xs, ¬ c = '\n' := by
  intro c hc
  rw [renderIntList] at hc
  simp only [List.cons_append, List.mem_cons, List.mem_append, List.mem_singleton,
    List.not_mem_nil, or_false] at hc
  rcases hc with rfl | hcs | rfl
  · decide
  · refine sepComma_no_nl _ ?_ c hcs
    intro l hl
    obtain ⟨i, _, rfl⟩ := List.mem_map.mp hl
    exact intRender_no_nl i
  · decide

theorem renderFinal_no_nl (fa : FinalAnswer) (hfa : plainFinal fa = true) :
    ∀ c ∈ renderFinal fa, ¬ c = '\n' := by
  match fa with
  | .fstr v => exact renderStr_no_nl v (by simpa [plainFinal] using hfa)
  | .fint i => exact intRender_no_nl i
  | .fbool true => intro c hc; revert hc; revert c; decide
  | .fbool false => intro c hc; revert hc; revert c; decide
  | .flist vs =>
    intro c hc
    rw [renderFinal, renderStrList] at hc
    simp only [List.cons_append, List.mem_cons, List.mem_append, List.mem_singleton,
      List.not_mem_nil, or_false] at hc
    rcases hc with rfl | hcs | rfl
    · decide
    · refine sepComma_no_nl _ ?_ c hcs
      intro l hl
      obtain ⟨s, hsm, rfl⟩ := List.mem_map.mp hl
      exact renderStr_no_nl s (List.all_eq_true.mp (by simpa [plainFinal] using hfa) s hsm)
    · decide

theorem serialize_no_nl (x : StructuredAnswer)
    (h1 : plainStr x.step_by_step_analysis = true)
    (h2 : plainStr x.reasoning_summary = true)
    (h3 : plainFinal x.final_answer = true) :
    ∀ c ∈ serialize x, ¬ c = '\n' := by
  intro c hc
  rw [serialize] at hc
  simp only [List.mem_append, List.mem_cons, List.mem_singleton, List.not_mem_nil,
    or_false, false_or] at hc
  have hkey : ∀ k : List Char, k.all (fun c2 => !(c2 = '\n' : Bool)) = true →
      c ∈ renderStr k → ¬ c = '\n' := by
    intro k hk hck he
    subst he
    rw [renderStr] at hck
    simp only [List.cons_append, List.mem_cons, List.mem_append,
      List.mem_singleton] at hck
    rcases hck with h | h | h
    · exact absurd h (by decide)
    · simpa using List.all_eq_true.mp hk _ h
    · exact absurd h (by decide)
  rcases hc with (rfl | ((((((hm|rfl|hm3)|rfl|hm5)|rfl|hm7)|rfl|hm9)|rfl|hm11)|rfl|hm13)|rfl|hm15) | rfl
  · decide
  · exact hkey fieldStep (by decide) hm
  · decide
  · exact renderStr_no_nl _ h1 c hm3
  · decide
  · exact hkey fieldSummary (by decide) hm5
  · decide
  · exact renderStr_no_nl _ h2 c hm7
  · decide
  · exact hkey fieldPages (by decide) hm9
  · decide
  · exact renderIntList_no_nl _ c hm11
  · decide
  · exact hkey fieldFinal (by decide) hm13
  · decide
  · exact renderFinal_no_nl _ h3 c hm15
  · decide

theorem splitOnNl_no_nl (cs : List Char) (h : ∀ c ∈ cs, ¬ c = '\n') :
    splitOnNl cs = [cs] := by
  induction cs with
  | nil => rfl
  | cons c t ih =>
    rw [splitOnNl]
    rw [if_neg (h c (by simp))]
    rw [ih (fun c2 hc2 => h c2 (List.mem_cons_of_mem _ hc2))]

theorem dropWhile_pyws_cons (c : Char) (t : List Char) (hc : isPyWs c = false) :
    (c :: t).dropWhile isPyWs = c :: t := by
  rw [List.dropWhile_cons, hc]
  rfl

theorem pyStrip_serialize (x : StructuredAnswer) :
    pyStrip (serialize x) = serialize x := by
  rw [pyStrip]
  have h1 : (serialize x).dropWhile isPyWs = serialize x := by
    rw [serialize]
    simp only [List.cons_append]
    exact dropWhile_pyws_cons _ _ (by decide)
  rw [h1]
  have h2 : (serialize x).reverse.dropWhile isPyWs = (serialize x).reverse := by
    rw [serialize, List.reverse_append]
    simp only [List.reverse_cons, List.reverse_nil, List.nil_append,
      List.singleton_append]
    exact dropWhile_pyws_cons _ _ (by decide)
  rw [h2, List.reverse_reverse]

theorem serialize_head (x : StructuredAnswer) :
    ∃ r, serialize x = braceL :: r := by
  rw [serialize]
  simp only [List.cons_append]
  exact ⟨_, rfl⟩

theorem fenceCond_serialize (x : StructuredAnswer) :
    fenceCond (serialize x) = false := by
  rw [fenceCond, pyStrip_serialize]
  obtain ⟨r, hr⟩ := serialize_head x
  rw [hr]
  rw [show "```json".toList = '`' :: "``json".toList from rfl]
  rw [isPrefixOf_cons_ne _ _ _ _ (by decide)]
  simp only [Bool.false_or]
  refine decide_eq_false ?_
  intro hcontra
  rw [show "```".toList = '`' :: "``".toList from rfl] at hcontra
  exact absurd (List.head_eq_of_cons_eq hcontra) (by decide)

theorem processFence_serialize (x : StructuredAnswer)
    (h1 : plainStr x.step_by_step_analysis = true)
    (h2 : plainStr x.reasoning_summary = true)
    (h3 : plainFinal x.final_answer = true) :
    processFence (serialize x) = serialize x := by
  rw [processFence]
  cases hinf : isInfixCh "```".toList (serialize x) with
  | false => rw [if_neg (by exact Bool.false_ne_true)]
  | true =>
    rw [if_pos (by exact rfl)]
    rw [splitOnNl_no_nl _ (serialize_no_nl x h1 h2 h3)]
    rw [show fenceCollect [serialize x] false = [] from by
      rw [fenceCollect, if_neg (by rw [fenceCond_serialize x]; exact Bool.false_ne_true)]
      rfl]
    rfl

theorem parse_serialize (x : StructuredAnswer)
    (h1 : plainStr x.step_by_step_analysis = true)
    (h2 : plainStr x.reasoning_summary = true)
    (h3 : plainFinal x.final_answer = true) :
    parse (serialize x) = toJson x := by
  rw [parse, pyStrip_serialize, processFence_serialize x h1 h2 h3, decodeStages,
    jsonLoads_serialize x h1 h2 h3]

theorem intListOfJson_map (xs : List ℤ) :
    intListOfJson (xs.map fun i : ℤ => Json.num (i : ℚ)) = some xs := by
  induction xs with
  | nil => rfl
  | cons i t ih =>
    rw [List.map_cons, intListOfJson]
    rw [if_pos (by rw [Rat.den_intCast])]
    rw [ih]
    simp [Rat.num_intCast]

theorem strListOfJson_map (vs : List (List Char)) :
    strListOfJson (vs.map Json.str) = some vs := by
  induction vs with
  | nil => rfl
  | cons s t ih =>
    rw [List.map_cons, strListOfJson, ih]
    rfl

theorem finalFromJson_toJson (fa : FinalAnswer) :
    finalFromJson (finalToJson fa) = some fa := by
  match fa with
  | .fstr v => rfl
  | .fint i =>
    rw [finalToJson, finalFromJson]
    rw [if_pos (by rw [Rat.den_intCast])]
    simp [Rat.num_intCast]
  | .fbool b => rfl
  | .flist vs =>
    rw [finalToJson, finalFromJson, strListOfJson_map]
    rfl

theorem getField_toJson_step (x : StructuredAnswer) :
    getField (toJson x) fieldStep = some (Json.str x.step_by_step_analysis) := by
  rw [toJson, getField]
  rw [List.find?_cons_of_pos _ (by exact decide_eq_true rfl)]
  rfl

theorem getField_toJson_summary (x : StructuredAnswer) :
    getField (toJson x) fieldSummary = some (Json.str x.reasoning_summary) := by
  rw [toJson, getField]
  rw [List.find?_cons_of_neg _ (by exact Bool.false_ne_true),
    List.find?_cons_of_pos _ (by exact decide_eq_true rfl)]
  rfl

theorem getField_toJson_pages (x : StructuredAnswer) :
    getField (toJson x) fieldPages =
      some (Json.arr (x.relevant_pages.map fun i : ℤ => Json.num (i : ℚ))) := by
  rw [toJson, getField]
  rw [List.find?_cons_of_neg _ (by exact Bool.false_ne_true),
    List.find?_cons_of_neg _ (by exact Bool.false_ne_true),
    List.find?_cons_of_pos _ (by exact decide_eq_true rfl)]
  rfl

theorem getField_toJson_final (x : StructuredAnswer) :
    getField (toJson x) fieldFinal = some (finalToJson x.final_answer) := by
  rw [toJson, getField]
  rw [List.find?_cons_of_neg _ (by exact Bool.false_ne_true),
    List.find?_cons_of_neg _ (by exact Bool.false_ne_true),
    List.find?_cons_of_neg _ (by exact Bool.false_ne_true),
    List.find?_cons_of_pos _ (by exact decide_eq_true rfl)]
  rfl

theorem fromJson_toJson (x : StructuredAnswer) :
    fromJson (toJson x) = some x := by
  rw [fromJson, getField_toJson_step, getField_toJson_summary, getField_toJson_pages,
    getField_toJson_final]
  dsimp only
  rw [intListOfJson_map, finalFromJson_toJson]

/-- C9: for every valid StructuredAnswer `x` with plain-ASCII field values,
parsing the canonical serialized form of `x` (the compact JSON object that
stage 1, direct `json.loads`, accepts) returns exactly the JSON encoding of
`x`, and decoding that result recovers `x` unchanged:
`parse (serialize x) == x`. -/
theorem parse_serialize_roundtrip (x : StructuredAnswer)
    (h1 : plainStr x.step_by_step_analysis = true)
    (h2 : plainStr x.reasoning_summary = true)
    (h3 : plainFinal x.final_answer = true) :
    parse (serialize x) = toJson x ∧ fromJson (parse (serialize x)) = some x := by
  have hp := parse_serialize x h1 h2 h3
  exact ⟨hp, by rw [hp, fromJson_toJson]⟩

/-- Witness for C9 at the concrete StructuredAnswer
`{"step_by_step_analysis":"a","reasoning_summary":"b","relevant_pages":[1,2],"final_answer":"42"}`. -/
theorem parse_serialize_roundtrip_witness :
    plainStr ("a".toList) = true ∧ plainStr ("b".toList) = true ∧
      plainFinal (.fstr "42".toList) = true ∧
      (parse (serialize ⟨"a".toList, "b".toList, [1, 2], .fstr "42".toList⟩) =
        toJson ⟨"a".toList, "b".toList, [1, 2], .fstr "42".toList⟩ ∧
       fromJson (parse (serialize ⟨"a".toList, "b".toList, [1, 2], .fstr "42".toList⟩)) =
        some ⟨"a".toList, "b".toList, [1, 2], .fstr "42".toList⟩) :=
  ⟨by decide, by decide, by decide,
    parse_serialize_roundtrip _ (by decide) (by decide) (by decide)⟩
